import Mathlib

/-!
Verification development for the chunk-graph core of a module bundler
(`lib/Chunk.js`, `lib/util/SortableSet.js`, `lib/DependenciesBlock.js`).

Chunks are identified by numbers (their `debugId`).  The global mutable heap
of all chunk objects is modelled as a structure of functions from chunk ids
to the per-chunk fields that the graph operations read and write.  Edge sets
(`_chunks`, `_parents`) are JavaScript `Set`s: insertion-ordered and
duplicate-free, so they are modelled as `List Nat` with set-flavoured
insertion (`jsAdd`) and deletion (`List.erase`).  `forEach` loops become
`List.foldl` over the snapshot taken when the loop starts; for every loop in
the translated code the iterated set is provably not mutated while the loop
runs, so the snapshot semantics agrees with JavaScript's live iteration.
-/

/-- JS `Set.prototype.add`: append the value unless it is already a member. -/
def jsAdd (l : List Nat) (x : Nat) : List Nat :=
  if x ∈ l then l else l ++ [x]

/-- Origin record kept in `chunk.origins`: `{module, loc, name, reasons?}`. -/
structure Origin where
  module : Nat
  loc : String
  name : Option String
  reasons : Option (List String)
  deriving DecidableEq

/-- Global state of the chunk graph: per-chunk edge sets, module sets,
block lists and origin lists, plus the per-block fields (`block.chunks`,
`block.chunkReason`) that `remove`/`integrate` reassign.  `initial c` models
`c.isInitial()` (the chunk's entrypoint list is non-empty) and `msize m`
models the external `module.size()` metric. -/
structure CGraph where
  children : Nat → List Nat
  parents : Nat → List Nat
  modules : Nat → List Nat
  origins : Nat → List Origin
  blocksOf : Nat → List Nat
  blockChunks : Nat → Option (List Nat)
  blockReason : Nat → Option String
  initial : Nat → Bool
  msize : Nat → Int

def setChildren (g : CGraph) (a : Nat) (l : List Nat) : CGraph :=
  { g with children := fun x => if x = a then l else g.children x }

def setParents (g : CGraph) (a : Nat) (l : List Nat) : CGraph :=
  { g with parents := fun x => if x = a then l else g.parents x }

def setModules (g : CGraph) (a : Nat) (l : List Nat) : CGraph :=
  { g with modules := fun x => if x = a then l else g.modules x }

def setOrigins (g : CGraph) (a : Nat) (l : List Origin) : CGraph :=
  { g with origins := fun x => if x = a then l else g.origins x }

def setBlocksOf (g : CGraph) (a : Nat) (l : List Nat) : CGraph :=
  { g with blocksOf := fun x => if x = a then l else g.blocksOf x }

def setBlockChunks (g : CGraph) (b : Nat) (v : Option (List Nat)) : CGraph :=
  { g with blockChunks := fun x => if x = b then v else g.blockChunks x }

def setBlockReason (g : CGraph) (b : Nat) (v : Option String) : CGraph :=
  { g with blockReason := fun x => if x = b then v else g.blockReason x }

/-- `Chunk.addChunk(chunk)`: returns `false` and leaves the state unchanged
when the edge is already present, otherwise inserts the child edge (one side
only) and returns `true`. -/
def addChunk (g : CGraph) (self c : Nat) : CGraph × Bool :=
  if c ∈ g.children self then (g, false)
  else (setChildren g self (g.children self ++ [c]), true)

/-- `Chunk.addParent(parentChunk)`: the mirror of `addChunk` on `_parents`. -/
def addParent (g : CGraph) (self p : Nat) : CGraph × Bool :=
  if p ∈ g.parents self then (g, false)
  else (setParents g self (g.parents self ++ [p]), true)

/-- `Chunk.removeChunk(chunk)`: delete the child edge and notify the child via
`chunk.removeParent(this)`.  The mutual recursion in the source bottoms out
after one round trip (the nested `removeChunk` call finds the edge already
deleted), so it is unfolded here. -/
def removeChunk (g : CGraph) (self c : Nat) : CGraph × Bool :=
  if c ∈ g.children self then
    let g1 := setChildren g self ((g.children self).erase c)
    if self ∈ g1.parents c then
      (setParents g1 c ((g1.parents c).erase self), true)
    else (g1, true)
  else (g, false)

/-- `Chunk.removeParent(chunk)`: delete the parent edge and notify the parent
via `chunk.removeChunk(this)`, whose nested call is again a no-op. -/
def removeParent (g : CGraph) (self p : Nat) : CGraph × Bool :=
  if p ∈ g.parents self then
    let g1 := setParents g self ((g.parents self).erase p)
    if self ∈ g1.children p then
      (setChildren g1 p ((g1.children p).erase self), true)
    else (g1, true)
  else (g, false)

/-- `Chunk.canBeIntegrated(otherChunk)`. -/
def canBeIntegrated (g : CGraph) (self other : Nat) : Bool :=
  if g.initial other then false
  else if g.initial self then
    if (g.parents other).length ≠ 1 ∨ self ∉ g.parents other then false
    else true
  else true

/-- Options record for the cost model; `none` models an absent (or
non-number) property on the options object. -/
structure SizeOptions where
  chunkOverhead : Option Int
  entryChunkMultiplicator : Option Int

/-- `Chunk.addMultiplierAndOverhead(size, options)`: the overhead defaults to
10000 unless `options.chunkOverhead` is a number (so an explicit `0` is
honored), while the multiplier uses `options.entryChunkMultiplicator || 10`
for initial chunks (so a falsy `0` falls back to the default `10`). -/
def addMultiplierAndOverhead (g : CGraph) (self : Nat) (size : Int)
    (options : SizeOptions) : Int :=
  let overhead : Int :=
    match options.chunkOverhead with
    | some v => v
    | none => 10000
  let multiplicator : Int :=
    if g.initial self then
      match options.entryChunkMultiplicator with
      | some v => if v = 0 then 10 else v
      | none => 10
    else 1
  size * multiplicator + overhead

/-- `Chunk.modulesSize()`: sum of `module.size()` over the member modules. -/
def modulesSize (g : CGraph) (self : Nat) : Int :=
  (g.modules self).foldl (fun acc m => acc + g.msize m) 0

/-- `Chunk.integratedSize(otherChunk, options)`: `none` models the sentinel
`false` returned when the chunks cannot be integrated. -/
def integratedSize (g : CGraph) (self other : Nat) (options : SizeOptions) :
    Option Int :=
  if ¬ canBeIntegrated g self other then none
  else
    let sz := (g.modules other).foldl
      (fun acc m => if m ∉ g.modules self then acc + g.msize m else acc)
      (modulesSize g self)
    some (addMultiplierAndOverhead g self sz options)

/-- `Chunk.moveModule(module, otherChunk)` as it affects chunk state: the
module's reciprocal `removeChunk` notification removes it from `self`'s
module set (external `Module` contract), and it is added to the target. -/
def moveModule (g : CGraph) (self m target : Nat) : CGraph :=
  let g1 := setModules g self ((g.modules self).erase m)
  setModules g1 target (jsAdd (g1.modules target) m)

/-- `Chunk.replaceChunk(oldChunk, newChunk)`: drop the old child edge and,
unless it would be a self-loop, wire `newChunk` in both directions (the
`addChunk` side only runs when `newChunk.addParent(this)` reported a new
edge). -/
def replaceChunk (g : CGraph) (self oldC newC : Nat) : CGraph :=
  let g1 := setChildren g self ((g.children self).erase oldC)
  if self ≠ newC then
    let r := addParent g1 newC self
    if r.2 then (addChunk r.1 self newC).1 else r.1
  else g1

/-- `Chunk.replaceParentChunk(oldParentChunk, newParentChunk)`. -/
def replaceParentChunk (g : CGraph) (self oldP newP : Nat) : CGraph :=
  let g1 := setParents g self ((g.parents self).erase oldP)
  if self ≠ newP then
    let r := addChunk g1 newP self
    if r.2 then (addParent r.1 self newP).1 else r.1
  else g1

/-- Per-origin update applied by `integrate` to every entry of `this.origins`
after `other`'s origins were appended: install `[reason]` when there is no
reasons list, otherwise prepend `reason` unless it is already the head. -/
def applyReasonToOrigin (reason : String) (o : Origin) : Origin :=
  match o.reasons with
  | none => { o with reasons := some [reason] }
  | some rs => if rs.head? ≠ some reason then { o with reasons := some (reason :: rs) } else o

/-- Block reassignment step of `integrate` for one block of `other`:
substitute `self` for `other` in the block's chunk list (a `null` list
becomes `[self]`), record the reason, and `this.addBlock(b)`
(`addToCollection`: append unless already present). -/
def integrateBlockStep (self other : Nat) (reason : String) (h : CGraph)
    (b : Nat) : CGraph :=
  let newChunks := match h.blockChunks b with
    | some l => l.map (fun c => if c = other then self else c)
    | none => [self]
  let h1 := setBlockChunks h b (some newChunks)
  let h2 := setBlockReason h1 b (some reason)
  if b ∈ h2.blocksOf self then h2
  else setBlocksOf h2 self (h2.blocksOf self ++ [b])

/-- Module phase of `integrate`: `otherChunk.moveModule(module, this)` for a
snapshot of `other`'s modules, then `otherChunk._modules.clear()`. -/
def intModules (g : CGraph) (self other : Nat) : CGraph :=
  setModules ((g.modules other).foldl (fun h m => moveModule h other m self) g)
    other []

/-- Parent phase of `integrate`: `parentChunk.replaceChunk(otherChunk, this)`
for each parent of `other`, then `otherChunk._parents.clear()`. -/
def intParents (g : CGraph) (self other : Nat) : CGraph :=
  setParents ((g.parents other).foldl (fun h p => replaceChunk h p other self) g)
    other []

/-- Child phase of `integrate`: `chunk.replaceParentChunk(otherChunk, this)`
for each child of `other`, then `otherChunk._chunks.clear()`. -/
def intChildren (g : CGraph) (self other : Nat) : CGraph :=
  setChildren
    ((g.children other).foldl (fun h c => replaceParentChunk h c other self) g)
    other []

/-- Block phase of `integrate`, ending with `otherChunk.blocks.length = 0`. -/
def intBlocks (g : CGraph) (self other : Nat) (reason : String) : CGraph :=
  setBlocksOf ((g.blocksOf other).foldl (integrateBlockStep self other reason) g)
    other []

/-- Origin phase of `integrate`: append `other`'s origins, then run the
reason update over `this.origins` — which at that point already includes the
appended origins. -/
def intOrigins (g : CGraph) (self other : Nat) (reason : String) : CGraph :=
  let g9 := setOrigins g self (g.origins self ++ g.origins other)
  setOrigins g9 self ((g9.origins self).map (applyReasonToOrigin reason))

/-- Final cleanup of `integrate`: delete `other` and `this` from `this`'s own
child and parent sets. -/
def intCleanup (g : CGraph) (self other : Nat) : CGraph :=
  let g11 := setChildren g self (((g.children self).erase other).erase self)
  setParents g11 self (((g11.parents self).erase other).erase self)

/-- `Chunk.integrate(otherChunk, reason)`.  Phase order follows the source:
guard, module transfer, parent rewiring, child rewiring, block reassignment,
origin merge, final self/other edge cleanup.  Each `forEach` is a fold over
the snapshot of the iterated set at loop entry, which the loop bodies never
mutate. -/
def integrate (g : CGraph) (self other : Nat) (reason : String) : CGraph × Bool :=
  if ¬ canBeIntegrated g self other then (g, false)
  else
    (intCleanup
      (intOrigins
        (intBlocks (intChildren (intParents (intModules g self other) self other)
          self other) self other reason) self other reason) self other, true)

/-- Short-circuit step inside `remove`'s parent loop: `chunk.addParent(p)`
then `p.addChunk(chunk)` for one sub chunk. -/
def shortCircuit (p : Nat) (k : CGraph) (c : Nat) : CGraph :=
  (addChunk (addParent k c p).1 p c).1

/-- One iteration of `remove`'s parent loop: delete `this` (`x`) from the
parent's child set, then short-circuit every current sub chunk of `x` onto
that parent. -/
def removeParentStep (x : Nat) (h : CGraph) (p : Nat) : CGraph :=
  let h1 := setChildren h p ((h.children p).erase x)
  (h1.children x).foldl (shortCircuit p) h1

/-- One iteration of `remove`'s second loop: `chunk._parents.delete(this)`. -/
def clearParentStep (x : Nat) (h : CGraph) (c : Nat) : CGraph :=
  setParents h c ((h.parents c).erase x)

/-- State after `remove`'s parent loop (before the second loop that deletes
`this` from its sub chunks' parent sets). -/
def removeLoop1Fn (g : CGraph) (x : Nat) : CGraph :=
  (g.parents x).foldl (removeParentStep x) g

/-- `Chunk.remove(reason)`, edge part: for every parent delete the child edge
to `this` and short-circuit every child of `this` onto that parent, then
delete `this` from every child's parent set.  Note the source never clears
`this._parents` or `this._chunks` themselves. -/
def removeEdges (g : CGraph) (x : Nat) : CGraph :=
  ((removeLoop1Fn g x).children x).foldl (clearParentStep x) (removeLoop1Fn g x)

/-- One iteration of `remove`'s block loop: drop `this` (`x`) from the
block's chunk list; when the list empties it becomes the null marker and
the reason is recorded.  A `null` list is skipped here: on it the source
would fault at `block.chunks.indexOf` (states reached through the graph
builder pair `chunk.blocks` membership with `block.chunks` membership, so
the branch is unreachable there). -/
def removeBlockStep (x : Nat) (reason : String) (h : CGraph) (b : Nat) : CGraph :=
  match h.blockChunks b with
  | none => h
  | some l =>
    if x ∈ l then
      let l' := l.erase x
      if l' = [] then setBlockReason (setBlockChunks h b none) b (some reason)
      else setBlockChunks h b (some l')
    else h

/-- `Chunk.remove(reason)`, block part. -/
def removeBlocks (g : CGraph) (x : Nat) (reason : String) : CGraph :=
  (g.blocksOf x).foldl (removeBlockStep x reason) g

/-- `Chunk.remove(reason)`: module detach notifications (each member module's
reciprocal `removeChunk` drops it from `this._modules`), then edge rewiring,
then block cleanup. -/
def removeFn (g : CGraph) (x : Nat) (reason : String) : CGraph :=
  removeBlocks (removeEdges (setModules g x []) x) x reason

/-- One iteration of `split`'s block loop: `newChunk.blocks.push(block)` and
`block.chunks.push(newChunk)` (plain pushes).  A `null` block chunk list
would fault at `block.chunks.push` in the source and is skipped. -/
def splitBlockStep (newC : Nat) (h : CGraph) (b : Nat) : CGraph :=
  let h1 := setBlocksOf h newC (h.blocksOf newC ++ [b])
  match h1.blockChunks b with
  | some l => setBlockChunks h1 b (some (l ++ [newC]))
  | none => h1

def splitChildStep (newC : Nat) (h : CGraph) (c : Nat) : CGraph :=
  (addParent (addChunk h newC c).1 c newC).1

def splitParentStep (newC : Nat) (h : CGraph) (p : Nat) : CGraph :=
  (addParent (addChunk h p newC).1 newC p).1

/-- `Chunk.split(newChunk)`: copy block references, then child edges, then
parent edges onto the fresh chunk.  `entrypoint.insertChunk` is an external
`Entrypoint` operation with no effect on the state modelled here. -/
def split (g : CGraph) (self newC : Nat) : CGraph :=
  let g1 := (g.blocksOf self).foldl (splitBlockStep newC) g
  let g2 := (g1.children self).foldl (splitChildStep newC) g1
  (g2.parents self).foldl (splitParentStep newC) g2

/-- Success of `chunk.checkConstraints()`: the duplicate-edge checks and both
symmetry checks pass (the source raises on the first violation). -/
def okAt (g : CGraph) (c : Nat) : Prop :=
  (g.children c).Nodup ∧ (∀ ch ∈ g.children c, c ∈ g.parents ch) ∧
  (g.parents c).Nodup ∧ (∀ p ∈ g.parents c, c ∈ g.children p)

instance (g : CGraph) (c : Nat) : Decidable (okAt g c) := by
  unfold okAt; infer_instance

/-- Global well-formedness: every live chunk passes `checkConstraints()`. -/
def GraphInv (live : List Nat) (g : CGraph) : Prop := ∀ c ∈ live, okAt g c

instance (live : List Nat) (g : CGraph) : Decidable (GraphInv live g) := by
  unfold GraphInv; infer_instance

/-- Graph mutations covered by the invariant claim.  `pairAdd a b` is the
edge insertion as every caller in the source performs it: `a.addChunk(b)`
immediately followed by `b.addParent(a)`. -/
inductive GraphOp where
  | pairAdd (a b : Nat)
  | remChunk (a b : Nat)
  | remParent (a b : Nat)
  | removeOp (x : Nat) (reason : String)
  | integrateOp (a b : Nat) (reason : String)
  | splitOp (a n : Nat)

/-- Side conditions under which an operation is issued by the pipeline: all
arguments are live chunks, a chunk is never integrated into itself, and
`split` receives a freshly constructed chunk (empty edge sets, unknown to
every live chunk). -/
def legalOp (live : List Nat) (g : CGraph) : GraphOp → Bool
  | .pairAdd a b => a ∈ live ∧ b ∈ live
  | .remChunk a b => a ∈ live ∧ b ∈ live
  | .remParent a b => a ∈ live ∧ b ∈ live
  | .removeOp x _ => x ∈ live
  | .integrateOp a b _ => a ∈ live ∧ b ∈ live ∧ a ≠ b
  | .splitOp a n =>
    a ∈ live ∧ n ∉ live ∧ g.children n = [] ∧ g.parents n = [] ∧
      live.all (fun y => n ∉ g.children y ∧ n ∉ g.parents y)

/-- Effect of one operation on the live set and the heap.  `remove` retires
the removed chunk; a successful `integrate` retires the absorbed chunk;
`split` brings the fresh chunk to life. -/
def applyOp (live : List Nat) (g : CGraph) : GraphOp → List Nat × CGraph
  | .pairAdd a b => (live, (addParent (addChunk g a b).1 b a).1)
  | .remChunk a b => (live, (removeChunk g a b).1)
  | .remParent a b => (live, (removeParent g a b).1)
  | .removeOp x reason => (live.erase x, removeFn g x reason)
  | .integrateOp a b reason =>
    let r := integrate g a b reason
    (if r.2 then live.erase b else live, r.1)
  | .splitOp a n => (live ++ [n], split g a n)

/-- Reflexive-transitive closure of legal operations. -/
inductive GraphSteps :
    List Nat → CGraph → List Nat → CGraph → Prop where
  | refl {live g} : GraphSteps live g live g
  | tail {live g live1 g1 live2 g2 op} :
      GraphSteps live g live1 g1 →
      legalOp live1 g1 op = true →
      applyOp live1 g1 op = (live2, g2) →
      GraphSteps live g live2 g2

/-!
SortableSet (`lib/util/SortableSet.js`).  Elements are integers; the
remembered comparator `_lastActiveSortFn` is compared by reference in the
source, so comparators are identified by a number and their behaviour is a
separate function argument.  `sortWith` returns the new set together with a
flag telling whether the comparator was handed to the sort at all (on a
cache hit the branch returns early and the comparator is never invoked).
JavaScript's `Array.prototype.sort` is stable; for a consistent comparator
its result is therefore the stable sort, modelled by `List.insertionSort`
with the relation `fn a b ≤ 0`.
-/

structure SortableSet where
  elems : List Int
  lastActiveSortFn : Option Nat
  noCache : Bool
  deriving DecidableEq

/-- `SortableSet.add(value)`: clear the remembered comparator first, then
`super.add` (insert if absent). -/
def SortableSet.add (s : SortableSet) (v : Int) : SortableSet :=
  { s with lastActiveSortFn := none,
           elems := if v ∈ s.elems then s.elems else s.elems ++ [v] }

/-- Inherited `Set.prototype.delete`: the class does not override it, so the
remembered comparator is untouched. -/
def SortableSet.del (s : SortableSet) (v : Int) : SortableSet :=
  { s with elems := s.elems.erase v }

/-- `SortableSet.sortWith(sortFn)`: skip entirely (comparator not invoked)
when caching is on and the set is empty or `sortFn` is the remembered
comparator; otherwise sort and remember `sortFn`. -/
def SortableSet.sortWith (s : SortableSet) (fnId : Nat) (fn : Int → Int → Int) :
    SortableSet × Bool :=
  if ¬ s.noCache ∧ (s.elems.length = 0 ∨ some fnId = s.lastActiveSortFn) then
    (s, false)
  else
    ({ s with elems := s.elems.insertionSort (fun a b => fn a b ≤ 0),
              lastActiveSortFn := some fnId }, true)

/-!
DependenciesBlock (`lib/DependenciesBlock.js`), the parts needed for
`getIdentForChunk`.  Blocks are identified by numbers inside an environment
of field maps.  `identifier b = none` models a block without an
`identifier` method; `rel` stands for the external
`identifierUtils.makePathsRelative(context, ...)` helper.
-/

structure BlockEnv where
  parent : Nat → Option Nat
  childrenOf : Nat → List Nat
  identifier : Nat → Option String
  chunksOf : Nat → List Nat
  rel : String → String

/-- JS `Array.prototype.indexOf`: first index of the value, `-1` if absent. -/
def jsIndexOf : List Nat → Nat → Int
  | [], _ => -1
  | a :: as, x =>
    if a = x then 0
    else
      let r := jsIndexOf as x
      if r = -1 then -1 else r + 1

/-- The chain `this.parent`, `this.parent.parent`, ... bounded by `fuel`
(`getIdentForChunk`'s `while(parent)` walks it; on the acyclic trees built
by `addBlock` any fuel at least the tree depth is exact). -/
def ancestorChain (env : BlockEnv) : Nat → Option Nat → List Nat
  | 0, _ => []
  | _, none => []
  | fuel + 1, some p => p :: ancestorChain env fuel (env.parent p)

/-- `DependenciesBlock.getIdentForChunk(chunk, context)`.  The loop body
reads `const p = this.parent` on every iteration — not the walking `parent`
variable — so each of the `chain.length` iterations prepends the segment
computed from `this`'s own position under its immediate parent. -/
def getIdentForChunk (env : BlockEnv) (fuel : Nat) (self chunk : Nat) :
    Option String :=
  match env.identifier self with
  | none => none
  | some idf =>
    let ident0 : List String :=
      if (env.chunksOf self).length > 1 then
        [toString (jsIndexOf (env.chunksOf self) chunk)]
      else []
    let chain := ancestorChain env fuel (env.parent self)
    let withSegs := chain.foldl
      (fun acc _ =>
        match env.parent self with
        | some p =>
          (toString (jsIndexOf (env.childrenOf p) self) ++ "/" ++
            toString ((env.childrenOf p).length - 1 : Int)) :: acc
        | none => acc)
      ident0
    some (String.intercalate ":" (env.rel idf :: withSegs))

/-- The per-ancestor identifier the specification describes: one segment per
ancestor, giving that ancestor's position among its own parent's child
blocks (the innermost block's own segment comes from its immediate parent).
Modelled from the spec for comparison with the source translation above. -/
def getIdentForChunkSpec (env : BlockEnv) (fuel : Nat) (self chunk : Nat) :
    Option String :=
  match env.identifier self with
  | none => none
  | some idf =>
    let ident0 : List String :=
      if (env.chunksOf self).length > 1 then
        [toString (jsIndexOf (env.chunksOf self) chunk)]
      else []
    let chain := ancestorChain env fuel (env.parent self)
    let withSegs := (chain.zip (self :: chain)).foldl
      (fun acc pc =>
        (toString (jsIndexOf (env.childrenOf pc.1) pc.2) ++ "/" ++
          toString ((env.childrenOf pc.1).length - 1 : Int)) :: acc)
      ident0
    some (String.intercalate ":" (env.rel idf :: withSegs))

/-- Mid-loop description of `remove`'s parent loop on chunk `x`, relative to
the pre-loop state `g0`: `D` is the list of parents processed so far.
`parents x` never changes; `children x` loses its `x` entry once `x` itself
is processed; a chunk gains parent `p` exactly for processed parents `p`
when it is a sub chunk of `x`; children sets of unprocessed chunks are
untouched, processed parents have lost `x` and gained `x`'s sub chunks. -/
structure RemoveMid (g0 : CGraph) (x : Nat) (D : List Nat) (h : CGraph) : Prop where
  parents_x : h.parents x = g0.parents x
  children_x : h.children x =
    if x ∈ D then (g0.children x).erase x else g0.children x
  parents_char : ∀ c, c ≠ x → ∀ z,
    (z ∈ h.parents c ↔ z ∈ g0.parents c ∨ (z ∈ D ∧ c ∈ g0.children x))
  children_untouched : ∀ q, q ≠ x → q ∉ D → h.children q = g0.children q
  children_char : ∀ q, q ∈ D → q ≠ x → ∀ z, z ≠ x →
    (z ∈ h.children q ↔ z ∈ g0.children q ∨ z ∈ g0.children x)
  children_x_mem : ∀ q, q ∈ D → q ≠ x → x ∈ h.children q →
    x ∈ (g0.children q).erase x ∨ x ∈ g0.children x
  nodup_children : ∀ q, (g0.children q).Nodup → (h.children q).Nodup
  nodup_parents : ∀ q, (g0.parents q).Nodup → (h.parents q).Nodup
  modules_eq : h.modules = g0.modules
  origins_eq : h.origins = g0.origins
  blocksOf_eq : h.blocksOf = g0.blocksOf
  blockChunks_eq : h.blockChunks = g0.blockChunks
  blockReason_eq : h.blockReason = g0.blockReason

/-- Mid-loop description of `integrate`'s parent loop
(`parentChunk.replaceChunk(other, self)` over the snapshot of `other`'s
parents), relative to the pre-loop state `u0`; `D` is the processed
prefix. -/
structure IntPMid (u0 : CGraph) (a b : Nat) (D : List Nat) (h : CGraph) : Prop where
  ch_untouched : ∀ q, q ∉ D → h.children q = u0.children q
  ch_char : ∀ q, q ∈ D → ∀ z,
    (z ∈ h.children q ↔
      z ∈ (u0.children q).erase b ∨ (z = a ∧ q ≠ a ∧ q ∉ u0.parents a))
  par_a : ∀ z, z ∈ h.parents a ↔ z ∈ u0.parents a ∨ (z ∈ D ∧ z ≠ a)
  par_other : ∀ c, c ≠ a → h.parents c = u0.parents c
  nodup_ch : ∀ q, (u0.children q).Nodup → (h.children q).Nodup
  nodup_par : ∀ q, (u0.parents q).Nodup → (h.parents q).Nodup

/-- Mid-loop description of `integrate`'s child loop
(`chunk.replaceParentChunk(other, self)` over the snapshot of `other`'s
children), relative to the pre-loop state `u1`. -/
structure IntCMid (u1 : CGraph) (a b : Nat) (D : List Nat) (h : CGraph) : Prop where
  par_untouched : ∀ q, q ∉ D → h.parents q = u1.parents q
  par_char : ∀ q, q ∈ D → ∀ z,
    (z ∈ h.parents q ↔
      z ∈ (u1.parents q).erase b ∨ (z = a ∧ q ≠ a ∧ q ∉ u1.children a))
  ch_a : ∀ z, z ∈ h.children a ↔ z ∈ u1.children a ∨ (z ∈ D ∧ z ≠ a)
  ch_other : ∀ q, q ≠ a → h.children q = u1.children q
  nodup_ch : ∀ q, (u1.children q).Nodup → (h.children q).Nodup
  nodup_par : ∀ q, (u1.parents q).Nodup → (h.parents q).Nodup

/-! Concrete states used by witnesses and counterexamples. -/

/-- Empty heap: every chunk has empty collections, no chunk is initial. -/
def cgEmpty : CGraph :=
  { children := fun _ => [], parents := fun _ => [], modules := fun _ => [],
    origins := fun _ => [], blocksOf := fun _ => [],
    blockChunks := fun _ => none, blockReason := fun _ => none,
    initial := fun _ => false, msize := fun _ => 0 }

/-- The spec's sizing scenario: chunk 0 is initial with one module (id 10,
size 100); chunk 1 is non-initial, its only parent is chunk 0, with one
module (id 20, size 50) not contained in chunk 0. -/
def cgSize : CGraph :=
  { cgEmpty with
    children := fun x => if x = 0 then [1] else [],
    parents := fun x => if x = 1 then [0] else [],
    modules := fun x => if x = 0 then [10] else if x = 1 then [20] else [],
    initial := fun x => x = 0,
    msize := fun m => if m = 10 then 100 else if m = 20 then 50 else 0 }

/-- A three-chunk chain 1 → 0 → 2 (chunk 0 has parent 1 and child 2). -/
def cgChain : CGraph :=
  { cgEmpty with
    children := fun x => if x = 1 then [0] else if x = 0 then [2] else [],
    parents := fun x => if x = 0 then [1] else if x = 2 then [0] else [] }

/-- Two non-initial chunks 0 and 1; chunk 1 has an origin without a reasons
list, chunk 0 has an origin whose newest reason is "old"; block 3 produces
chunk 1. -/
def cgMerge : CGraph :=
  { cgEmpty with
    children := fun x => if x = 0 then [1] else [],
    parents := fun x => if x = 1 then [0] else [],
    origins := fun x =>
      if x = 0 then [{ module := 6, loc := "l0", name := none, reasons := some ["old"] }]
      else if x = 1 then [{ module := 5, loc := "l1", name := none, reasons := none }]
      else [],
    blocksOf := fun x => if x = 1 then [3] else [],
    blockChunks := fun b => if b = 3 then some [1] else none }

/-- Block tree for `getIdentForChunk`: block 2 sits at index 0 of block 1's
two child blocks, block 1 sits at index 1 of root block 0's two child
blocks; block 2 identifies itself as "id2" and produced the single chunk
7.  Paths are kept as-is (`rel` is the identity). -/
def envIdent : BlockEnv :=
  { parent := fun b => if b = 2 then some 1 else if b = 1 then some 0 else none,
    childrenOf := fun b => if b = 1 then [2, 3] else if b = 0 then [4, 1] else [],
    identifier := fun b => if b = 2 then some "id2" else none,
    chunksOf := fun b => if b = 2 then [7] else [],
    rel := fun s => s }

/-- Ascending integer comparator `(a, b) => a - b`, registered as id 0. -/
def ascFn : Int → Int → Int := fun a b => a - b

/-- Block-list invariant of the spec: the chunk list is a non-empty list, or
the null marker with the reassignment reason `r` recorded. -/
def GoodBlock (g : CGraph) (r : String) (b : Nat) : Prop :=
  (∃ l, g.blockChunks b = some l ∧ l ≠ []) ∨
    (g.blockChunks b = none ∧ g.blockReason b = some r)

/-! Theorems.  Helper lemmas first, then one theorem per claim (with
witnesses and counterexamples where required). -/

theorem foldl_filter_sum (f : Nat → Int) (S : List Nat) :
    ∀ (l : List Nat) (acc : Int),
      l.foldl (fun a m => if m ∉ S then a + f m else a) acc =
        acc + ((l.filter (fun m => decide (m ∉ S))).map f).sum := by
  intro l
  induction l with
  | nil => intro acc; simp
  | cons x xs ih =>
    intro acc
    by_cases hx : x ∈ S
    · have h1 : (if x ∉ S then acc + f x else acc) = acc := if_neg (by simp [hx])
      have h2 : List.filter (fun m => decide (m ∉ S)) (x :: xs) =
          List.filter (fun m => decide (m ∉ S)) xs := by
        rw [List.filter_cons]; simp [hx]
      rw [List.foldl_cons, h1, h2, ih]
    · have h1 : (if x ∉ S then acc + f x else acc) = acc + f x := if_pos hx
      have h2 : List.filter (fun m => decide (m ∉ S)) (x :: xs) =
          x :: List.filter (fun m => decide (m ∉ S)) xs := by
        rw [List.filter_cons]; simp [hx]
      rw [List.foldl_cons, h1, h2, ih, List.map_cons, List.sum_cons]
      ring

/-- C4: `canBeIntegrated(other)` is false whenever `other` is initial; when
`self` is initial it holds exactly when `other` has a single parent which is
`self`; otherwise it holds. -/
theorem canBeIntegrated_characterization (g : CGraph) (a b : Nat) :
    canBeIntegrated g a b = true ↔
      (g.initial b = false ∧
        (g.initial a = true → (g.parents b).length = 1 ∧ a ∈ g.parents b)) := by
  unfold canBeIntegrated
  by_cases hb : g.initial b <;> by_cases ha : g.initial a <;> simp [hb, ha]

/-- C10: on an initial chunk a falsy `entryChunkMultiplicator` of `0` is
replaced by the default multiplier 10, while `chunkOverhead = 0` is honored,
so the `{chunkOverhead: 0, entryChunkMultiplicator: 0}` options yield
`size * 10`. -/
theorem addMultiplierAndOverhead_falsy_zero (g : CGraph) (c : Nat)
    (h : g.initial c = true) :
    ∀ (size : Int) (ov : Option Int),
      addMultiplierAndOverhead g c size ⟨ov, some 0⟩ =
        size * 10 + (match ov with | some v => v | none => 10000) ∧
      addMultiplierAndOverhead g c size ⟨some 0, some 0⟩ = size * 10 := by
  intro size ov
  unfold addMultiplierAndOverhead
  simp [h]

theorem addMultiplierAndOverhead_falsy_zero_witness :
    cgSize.initial 0 = true ∧
      addMultiplierAndOverhead cgSize 0 7 ⟨some 0, some 0⟩ = 70 :=
  ⟨rfl, ((addMultiplierAndOverhead_falsy_zero cgSize 0 rfl 7 (some 0)).2).trans
    (by norm_num)⟩

/-- C5: `integratedSize` returns the "not mergeable" sentinel exactly when
`canBeIntegrated` fails, and otherwise applies the multiplier and overhead
to `self`'s module size plus the sizes of `other`'s modules that are not
already members of `self`; on the spec's concrete scenario it yields
`(100 + 50) * 10 + 10000 = 11500`. -/
theorem integratedSize_characterization :
    (∀ (g : CGraph) (a b : Nat) (opts : SizeOptions),
      integratedSize g a b opts =
        if canBeIntegrated g a b then
          some (addMultiplierAndOverhead g a
            (modulesSize g a +
              (((g.modules b).filter (fun m => decide (m ∉ g.modules a))).map
                g.msize).sum) opts)
        else none) ∧
    integratedSize cgSize 0 1 ⟨some 10000, some 10⟩ = some 11500 := by
  constructor
  · intro g a b opts
    unfold integratedSize
    rw [foldl_filter_sum g.msize (g.modules a) (g.modules b) (modulesSize g a)]
    by_cases h : canBeIntegrated g a b
    · rw [if_pos h, if_neg (by simp [h])]
    · rw [if_neg h, if_pos (by simp [h])]
  · decide

/-- C3: `add` always clears the remembered comparator (even on a duplicate
insert), `delete` never touches it, `sortWith` skips entirely (comparator
not invoked) on an empty set or a repeated comparator when caching is on,
and otherwise sorts (a permutation of the contents) and remembers the
comparator; concretely, inserting 3,1,2 then sorting ascending yields
1,2,3, a repeated sort performs no comparator invocation, and deleting an
element keeps the cache valid so the next identical sort is again free. -/
theorem sortableSet_cache_semantics :
    (∀ (s : SortableSet) (v : Int), (s.add v).lastActiveSortFn = none) ∧
    (∀ (s : SortableSet) (v : Int),
      (s.del v).lastActiveSortFn = s.lastActiveSortFn ∧
        (s.del v).noCache = s.noCache) ∧
    (∀ (c : Option Nat) (fnId : Nat) (fn : Int → Int → Int),
      SortableSet.sortWith ⟨[], c, false⟩ fnId fn = (⟨[], c, false⟩, false)) ∧
    (∀ (l : List Int) (fnId : Nat) (fn : Int → Int → Int),
      SortableSet.sortWith ⟨l, some fnId, false⟩ fnId fn =
        (⟨l, some fnId, false⟩, false)) ∧
    (∀ (s : SortableSet) (fnId : Nat) (fn : Int → Int → Int),
      s.noCache = true ∨ (s.elems ≠ [] ∧ some fnId ≠ s.lastActiveSortFn) →
        (s.sortWith fnId fn).1.elems.Perm s.elems ∧
        (s.sortWith fnId fn).1.lastActiveSortFn = some fnId ∧
        (s.sortWith fnId fn).2 = true) ∧
    ((((SortableSet.mk [] none false).add 3).add 1).add 2 =
        ⟨[3, 1, 2], none, false⟩ ∧
      SortableSet.sortWith ⟨[3, 1, 2], none, false⟩ 0 ascFn =
        (⟨[1, 2, 3], some 0, false⟩, true) ∧
      SortableSet.sortWith ⟨[1, 2, 3], some 0, false⟩ 0 ascFn =
        (⟨[1, 2, 3], some 0, false⟩, false) ∧
      SortableSet.del ⟨[1, 2, 3], some 0, false⟩ 2 = ⟨[1, 3], some 0, false⟩ ∧
      SortableSet.sortWith ⟨[1, 3], some 0, false⟩ 0 ascFn =
        (⟨[1, 3], some 0, false⟩, false) ∧
      List.Sorted (· ≤ ·) [(1 : Int), 3]) := by
  refine ⟨fun s v => rfl, fun s v => ⟨rfl, rfl⟩, ?_, ?_, ?_, by decide⟩
  · intro c fnId fn
    simp [SortableSet.sortWith]
  · intro l fnId fn
    simp [SortableSet.sortWith]
  · intro s fnId fn h
    have hcond :
        ¬ (¬ s.noCache ∧ (s.elems.length = 0 ∨ some fnId = s.lastActiveSortFn)) := by
      rcases h with h1 | ⟨h2, h3⟩
      · simp [h1]
      · rintro ⟨-, h4 | h5⟩
        · exact h2 (List.length_eq_zero.mp h4)
        · exact h3 h5
    unfold SortableSet.sortWith
    rw [if_neg hcond]
    exact ⟨List.perm_insertionSort _ _, rfl, rfl⟩

theorem sortableSet_cache_semantics_witness :
    (SortableSet.sortWith ⟨[5, 4], none, false⟩ 1 ascFn).1.elems.Perm [5, 4] ∧
      (SortableSet.sortWith ⟨[5, 4], none, false⟩ 1 ascFn).2 = true :=
  ⟨(sortableSet_cache_semantics.2.2.2.2.1 ⟨[5, 4], none, false⟩ 1 ascFn
      (Or.inr ⟨by decide, by decide⟩)).1,
    (sortableSet_cache_semantics.2.2.2.2.1 ⟨[5, 4], none, false⟩ 1 ascFn
      (Or.inr ⟨by decide, by decide⟩)).2.2⟩

/-- C9: on a depth-two block tree the source emits the innermost block's own
`index/siblings` segment once per ancestor (its loop reads `this.parent`
instead of the walking variable), so block 2 under parent 1 under root 0
yields "id2:0/1:0/1" where the per-ancestor identifier described by the
spec would yield "id2:1/1:0/1". -/
theorem getIdentForChunk_repeats_own_segment :
    getIdentForChunk envIdent 10 2 7 = some "id2:0/1:0/1" ∧
    getIdentForChunkSpec envIdent 10 2 7 = some "id2:1/1:0/1" ∧
    getIdentForChunk envIdent 10 2 7 ≠ getIdentForChunkSpec envIdent 10 2 7 := by
  refine ⟨rfl, rfl, by decide⟩

/-! Helper lemmas about the primitive mutators. -/

theorem foldl_preserves {α σ : Type} (Q : σ → Prop) (f : σ → α → σ) :
    ∀ (l : List α) (s : σ), (∀ t a, a ∈ l → Q t → Q (f t a)) → Q s →
      Q (l.foldl f s) := by
  intro l
  induction l with
  | nil => intro s _ hs; exact hs
  | cons a as ih =>
    intro s hstep hs
    exact ih (f s a) (fun t b hb => hstep t b (List.mem_cons_of_mem a hb))
      (hstep s a (List.mem_cons_self a as) hs)

theorem mem_append_singleton {z x : Nat} {l : List Nat} :
    z ∈ l ++ [x] ↔ z ∈ l ∨ z = x := by simp

theorem nodup_append_singleton {x : Nat} {l : List Nat}
    (h : l.Nodup) (hx : x ∉ l) : (l ++ [x]).Nodup := by
  rw [List.nodup_append]
  exact ⟨h, List.nodup_singleton x, by
    intro a ha hb
    rw [List.mem_singleton] at hb
    exact hx (hb ▸ ha)⟩

theorem setChildren_self (g : CGraph) (a : Nat) (l : List Nat) :
    (setChildren g a l).children a = l := by simp [setChildren]

theorem setChildren_ne (g : CGraph) (a : Nat) (l : List Nat) (q : Nat)
    (h : q ≠ a) : (setChildren g a l).children q = g.children q := by
  simp [setChildren, h]

theorem setParents_self (g : CGraph) (a : Nat) (l : List Nat) :
    (setParents g a l).parents a = l := by simp [setParents]

theorem setParents_ne (g : CGraph) (a : Nat) (l : List Nat) (q : Nat)
    (h : q ≠ a) : (setParents g a l).parents q = g.parents q := by
  simp [setParents, h]

theorem addChunk_parents (g : CGraph) (a b : Nat) :
    (addChunk g a b).1.parents = g.parents := by
  unfold addChunk; split <;> simp [setChildren]

theorem addChunk_modules (g : CGraph) (a b : Nat) :
    (addChunk g a b).1.modules = g.modules := by
  unfold addChunk; split <;> simp [setChildren]

theorem addChunk_origins (g : CGraph) (a b : Nat) :
    (addChunk g a b).1.origins = g.origins := by
  unfold addChunk; split <;> simp [setChildren]

theorem addChunk_blocksOf (g : CGraph) (a b : Nat) :
    (addChunk g a b).1.blocksOf = g.blocksOf := by
  unfold addChunk; split <;> simp [setChildren]

theorem addChunk_blockChunks (g : CGraph) (a b : Nat) :
    (addChunk g a b).1.blockChunks = g.blockChunks := by
  unfold addChunk; split <;> simp [setChildren]

theorem addChunk_blockReason (g : CGraph) (a b : Nat) :
    (addChunk g a b).1.blockReason = g.blockReason := by
  unfold addChunk; split <;> simp [setChildren]

theorem addChunk_children_ne (g : CGraph) (a b q : Nat) (h : q ≠ a) :
    (addChunk g a b).1.children q = g.children q := by
  unfold addChunk; split <;> simp [setChildren, h]

theorem addChunk_children_mem (g : CGraph) (a b q z : Nat) :
    z ∈ (addChunk g a b).1.children q ↔ z ∈ g.children q ∨ (q = a ∧ z = b) := by
  unfold addChunk
  split
  · rename_i hmem
    constructor
    · exact Or.inl
    · rintro (h | ⟨rfl, rfl⟩)
      · exact h
      · exact hmem
  · by_cases hq : q = a
    · subst hq
      simp [setChildren]
    · simp [setChildren, hq]

theorem addChunk_children_nodup (g : CGraph) (a b q : Nat)
    (h : (g.children q).Nodup) : ((addChunk g a b).1.children q).Nodup := by
  unfold addChunk
  split
  · exact h
  · rename_i hmem
    by_cases hq : q = a
    · subst hq
      rw [setChildren_self]
      exact nodup_append_singleton h hmem
    · rw [setChildren_ne _ _ _ _ hq]
      exact h

theorem addChunk_children_sub (g : CGraph) (a b q : Nat) :
    g.children q ⊆ (addChunk g a b).1.children q := by
  intro z hz
  exact (addChunk_children_mem g a b q z).mpr (Or.inl hz)

theorem addChunk_noop (g : CGraph) (a b : Nat) (h : b ∈ g.children a) :
    addChunk g a b = (g, false) := by
  unfold addChunk; rw [if_pos h]

theorem addParent_children (g : CGraph) (a p : Nat) :
    (addParent g a p).1.children = g.children := by
  unfold addParent; split <;> simp [setParents]

theorem addParent_modules (g : CGraph) (a p : Nat) :
    (addParent g a p).1.modules = g.modules := by
  unfold addParent; split <;> simp [setParents]

theorem addParent_origins (g : CGraph) (a p : Nat) :
    (addParent g a p).1.origins = g.origins := by
  unfold addParent; split <;> simp [setParents]

theorem addParent_blocksOf (g : CGraph) (a p : Nat) :
    (addParent g a p).1.blocksOf = g.blocksOf := by
  unfold addParent; split <;> simp [setParents]

theorem addParent_blockChunks (g : CGraph) (a p : Nat) :
    (addParent g a p).1.blockChunks = g.blockChunks := by
  unfold addParent; split <;> simp [setParents]

theorem addParent_blockReason (g : CGraph) (a p : Nat) :
    (addParent g a p).1.blockReason = g.blockReason := by
  unfold addParent; split <;> simp [setParents]

theorem addParent_parents_ne (g : CGraph) (a p q : Nat) (h : q ≠ a) :
    (addParent g a p).1.parents q = g.parents q := by
  unfold addParent; split <;> simp [setParents, h]

theorem addParent_parents_mem (g : CGraph) (a p q z : Nat) :
    z ∈ (addParent g a p).1.parents q ↔ z ∈ g.parents q ∨ (q = a ∧ z = p) := by
  unfold addParent
  split
  · rename_i hmem
    constructor
    · exact Or.inl
    · rintro (h | ⟨rfl, rfl⟩)
      · exact h
      · exact hmem
  · by_cases hq : q = a
    · subst hq
      simp [setParents]
    · simp [setParents, hq]

theorem addParent_parents_nodup (g : CGraph) (a p q : Nat)
    (h : (g.parents q).Nodup) : ((addParent g a p).1.parents q).Nodup := by
  unfold addParent
  split
  · exact h
  · rename_i hmem
    by_cases hq : q = a
    · subst hq
      rw [setParents_self]
      exact nodup_append_singleton h hmem
    · rw [setParents_ne _ _ _ _ hq]
      exact h

theorem addParent_parents_sub (g : CGraph) (a p q : Nat) :
    g.parents q ⊆ (addParent g a p).1.parents q := by
  intro z hz
  exact (addParent_parents_mem g a p q z).mpr (Or.inl hz)

theorem addParent_noop (g : CGraph) (a p : Nat) (h : p ∈ g.parents a) :
    addParent g a p = (g, false) := by
  unfold addParent; rw [if_pos h]

/-! Lemmas about `shortCircuit` and its fold inside `remove`'s parent loop. -/

theorem shortCircuit_parents_mem (p : Nat) (k : CGraph) (c q z : Nat) :
    z ∈ (shortCircuit p k c).parents q ↔
      z ∈ k.parents q ∨ (q = c ∧ z = p) := by
  unfold shortCircuit
  rw [show ((addChunk (addParent k c p).1 p c).1.parents q) =
      (addParent k c p).1.parents q from congrFun (addChunk_parents _ _ _) q]
  exact addParent_parents_mem k c p q z

theorem shortCircuit_parents_ne (p : Nat) (k : CGraph) (c q : Nat) (h : q ≠ c) :
    (shortCircuit p k c).parents q = k.parents q := by
  unfold shortCircuit
  rw [show ((addChunk (addParent k c p).1 p c).1.parents q) =
      (addParent k c p).1.parents q from congrFun (addChunk_parents _ _ _) q]
  exact addParent_parents_ne k c p q h

theorem shortCircuit_parents_noop (p : Nat) (k : CGraph) (c : Nat)
    (h : p ∈ k.parents c) : (shortCircuit p k c).parents = k.parents := by
  unfold shortCircuit
  rw [addChunk_parents, addParent_noop k c p h]

theorem shortCircuit_children_mem (p : Nat) (k : CGraph) (c q z : Nat) :
    z ∈ (shortCircuit p k c).children q ↔
      z ∈ k.children q ∨ (q = p ∧ z = c) := by
  unfold shortCircuit
  rw [addChunk_children_mem, congrFun (addParent_children k c p) q]

theorem shortCircuit_children_ne (p : Nat) (k : CGraph) (c q : Nat) (h : q ≠ p) :
    (shortCircuit p k c).children q = k.children q := by
  unfold shortCircuit
  rw [addChunk_children_ne _ _ _ _ h, congrFun (addParent_children k c p) q]

theorem shortCircuit_children_noop (p : Nat) (k : CGraph) (c : Nat)
    (h : c ∈ k.children p) : (shortCircuit p k c).children = k.children := by
  unfold shortCircuit
  rw [addChunk_noop _ _ _ (by rw [congrFun (addParent_children k c p) p]; exact h),
    addParent_children]

theorem shortCircuit_children_nodup (p : Nat) (k : CGraph) (c q : Nat)
    (h : (k.children q).Nodup) : ((shortCircuit p k c).children q).Nodup := by
  unfold shortCircuit
  exact addChunk_children_nodup _ _ _ _ (by rw [congrFun (addParent_children k c p) q]; exact h)

theorem shortCircuit_parents_nodup (p : Nat) (k : CGraph) (c q : Nat)
    (h : (k.parents q).Nodup) : ((shortCircuit p k c).parents q).Nodup := by
  unfold shortCircuit
  rw [show ((addChunk (addParent k c p).1 p c).1.parents q) =
      (addParent k c p).1.parents q from congrFun (addChunk_parents _ _ _) q]
  exact addParent_parents_nodup k c p q h

theorem shortCircuit_modules (p : Nat) (k : CGraph) (c : Nat) :
    (shortCircuit p k c).modules = k.modules := by
  unfold shortCircuit
  rw [addChunk_modules, addParent_modules]

theorem shortCircuit_origins (p : Nat) (k : CGraph) (c : Nat) :
    (shortCircuit p k c).origins = k.origins := by
  unfold shortCircuit
  rw [addChunk_origins, addParent_origins]

theorem shortCircuit_blocksOf (p : Nat) (k : CGraph) (c : Nat) :
    (shortCircuit p k c).blocksOf = k.blocksOf := by
  unfold shortCircuit
  rw [addChunk_blocksOf, addParent_blocksOf]

theorem shortCircuit_blockChunks (p : Nat) (k : CGraph) (c : Nat) :
    (shortCircuit p k c).blockChunks = k.blockChunks := by
  unfold shortCircuit
  rw [addChunk_blockChunks, addParent_blockChunks]

theorem shortCircuit_blockReason (p : Nat) (k : CGraph) (c : Nat) :
    (shortCircuit p k c).blockReason = k.blockReason := by
  unfold shortCircuit
  rw [addChunk_blockReason, addParent_blockReason]

theorem scFold_parents_mem (p : Nat) :
    ∀ (S : List Nat) (k : CGraph) (q z : Nat),
      (z ∈ ((S.foldl (shortCircuit p) k).parents q) ↔
        z ∈ k.parents q ∨ (z = p ∧ q ∈ S)) := by
  intro S
  induction S with
  | nil => intro k q z; simp
  | cons c0 S' ih =>
    intro k q z
    rw [List.foldl_cons, ih, shortCircuit_parents_mem]
    constructor
    · rintro ((hz | ⟨rfl, rfl⟩) | ⟨rfl, hq⟩)
      · exact Or.inl hz
      · exact Or.inr ⟨rfl, List.mem_cons_self _ _⟩
      · exact Or.inr ⟨rfl, List.mem_cons_of_mem _ hq⟩
    · rintro (hz | ⟨rfl, hq⟩)
      · exact Or.inl (Or.inl hz)
      · rcases List.mem_cons.mp hq with h0 | h1
        · exact Or.inl (Or.inr ⟨h0, rfl⟩)
        · exact Or.inr ⟨rfl, h1⟩

theorem scFold_children_mem (p : Nat) :
    ∀ (S : List Nat) (k : CGraph) (q z : Nat),
      (z ∈ ((S.foldl (shortCircuit p) k).children q) ↔
        z ∈ k.children q ∨ (q = p ∧ z ∈ S)) := by
  intro S
  induction S with
  | nil => intro k q z; simp
  | cons c0 S' ih =>
    intro k q z
    rw [List.foldl_cons, ih, shortCircuit_children_mem]
    constructor
    · rintro ((hz | ⟨rfl, rfl⟩) | ⟨rfl, hq⟩)
      · exact Or.inl hz
      · exact Or.inr ⟨rfl, List.mem_cons_self _ _⟩
      · exact Or.inr ⟨rfl, List.mem_cons_of_mem _ hq⟩
    · rintro (hz | ⟨rfl, hq⟩)
      · exact Or.inl (Or.inl hz)
      · rcases List.mem_cons.mp hq with h0 | h1
        · exact Or.inl (Or.inr ⟨rfl, h0⟩)
        · exact Or.inr ⟨rfl, h1⟩

theorem scFold_children_ne (p : Nat) :
    ∀ (S : List Nat) (k : CGraph) (q : Nat), q ≠ p →
      (S.foldl (shortCircuit p) k).children q = k.children q := by
  intro S
  induction S with
  | nil => intro k q _; rfl
  | cons c0 S' ih =>
    intro k q hq
    rw [List.foldl_cons, ih _ _ hq, shortCircuit_children_ne _ _ _ _ hq]

theorem scFold_parents_noop (p : Nat) :
    ∀ (S : List Nat) (k : CGraph) (c : Nat), p ∈ k.parents c →
      (S.foldl (shortCircuit p) k).parents c = k.parents c := by
  intro S
  induction S with
  | nil => intro k c _; rfl
  | cons c0 S' ih =>
    intro k c hp
    rw [List.foldl_cons]
    by_cases hc : c = c0
    · subst hc
      rw [ih _ _ (by rw [shortCircuit_parents_noop p k c hp]; exact hp),
        shortCircuit_parents_noop p k c hp]
    · rw [ih _ _ (by rw [shortCircuit_parents_ne p k c0 c hc]; exact hp),
        shortCircuit_parents_ne p k c0 c hc]

theorem scFold_children_noop (p : Nat) :
    ∀ (S : List Nat) (k : CGraph), (∀ c ∈ S, c ∈ k.children p) →
      (S.foldl (shortCircuit p) k).children = k.children := by
  intro S
  induction S with
  | nil => intro k _; rfl
  | cons c0 S' ih =>
    intro k hS
    rw [List.foldl_cons]
    have h0 : (shortCircuit p k c0).children = k.children :=
      shortCircuit_children_noop p k c0 (hS c0 (List.mem_cons_self _ _))
    rw [ih _ (fun c hc => by rw [h0]; exact hS c (List.mem_cons_of_mem _ hc)), h0]

theorem scFold_children_nodup (p : Nat) :
    ∀ (S : List Nat) (k : CGraph) (q : Nat), (k.children q).Nodup →
      ((S.foldl (shortCircuit p) k).children q).Nodup := by
  intro S
  induction S with
  | nil => intro k q h; exact h
  | cons c0 S' ih =>
    intro k q h
    rw [List.foldl_cons]
    exact ih _ _ (shortCircuit_children_nodup p k c0 q h)

theorem scFold_parents_nodup (p : Nat) :
    ∀ (S : List Nat) (k : CGraph) (q : Nat), (k.parents q).Nodup →
      ((S.foldl (shortCircuit p) k).parents q).Nodup := by
  intro S
  induction S with
  | nil => intro k q h; exact h
  | cons c0 S' ih =>
    intro k q h
    rw [List.foldl_cons]
    exact ih _ _ (shortCircuit_parents_nodup p k c0 q h)

theorem scFold_modules (p : Nat) :
    ∀ (S : List Nat) (k : CGraph),
      (S.foldl (shortCircuit p) k).modules = k.modules := by
  intro S
  induction S with
  | nil => intro k; rfl
  | cons c0 S' ih => intro k; rw [List.foldl_cons, ih, shortCircuit_modules]

theorem scFold_origins (p : Nat) :
    ∀ (S : List Nat) (k : CGraph),
      (S.foldl (shortCircuit p) k).origins = k.origins := by
  intro S
  induction S with
  | nil => intro k; rfl
  | cons c0 S' ih => intro k; rw [List.foldl_cons, ih, shortCircuit_origins]

theorem scFold_blocksOf (p : Nat) :
    ∀ (S : List Nat) (k : CGraph),
      (S.foldl (shortCircuit p) k).blocksOf = k.blocksOf := by
  intro S
  induction S with
  | nil => intro k; rfl
  | cons c0 S' ih => intro k; rw [List.foldl_cons, ih, shortCircuit_blocksOf]

theorem scFold_blockChunks (p : Nat) :
    ∀ (S : List Nat) (k : CGraph),
      (S.foldl (shortCircuit p) k).blockChunks = k.blockChunks := by
  intro S
  induction S with
  | nil => intro k; rfl
  | cons c0 S' ih => intro k; rw [List.foldl_cons, ih, shortCircuit_blockChunks]

theorem scFold_blockReason (p : Nat) :
    ∀ (S : List Nat) (k : CGraph),
      (S.foldl (shortCircuit p) k).blockReason = k.blockReason := by
  intro S
  induction S with
  | nil => intro k; rfl
  | cons c0 S' ih => intro k; rw [List.foldl_cons, ih, shortCircuit_blockReason]

/-! Field-transparency of the setters (all definitional). -/

theorem setChildren_parents_eq (g : CGraph) (a : Nat) (l : List Nat) :
    (setChildren g a l).parents = g.parents := rfl
theorem setChildren_modules_eq (g : CGraph) (a : Nat) (l : List Nat) :
    (setChildren g a l).modules = g.modules := rfl
theorem setChildren_origins_eq (g : CGraph) (a : Nat) (l : List Nat) :
    (setChildren g a l).origins = g.origins := rfl
theorem setChildren_blocksOf_eq (g : CGraph) (a : Nat) (l : List Nat) :
    (setChildren g a l).blocksOf = g.blocksOf := rfl
theorem setChildren_blockChunks_eq (g : CGraph) (a : Nat) (l : List Nat) :
    (setChildren g a l).blockChunks = g.blockChunks := rfl
theorem setChildren_blockReason_eq (g : CGraph) (a : Nat) (l : List Nat) :
    (setChildren g a l).blockReason = g.blockReason := rfl

theorem setParents_children_eq (g : CGraph) (a : Nat) (l : List Nat) :
    (setParents g a l).children = g.children := rfl
theorem setParents_modules_eq (g : CGraph) (a : Nat) (l : List Nat) :
    (setParents g a l).modules = g.modules := rfl
theorem setParents_origins_eq (g : CGraph) (a : Nat) (l : List Nat) :
    (setParents g a l).origins = g.origins := rfl
theorem setParents_blocksOf_eq (g : CGraph) (a : Nat) (l : List Nat) :
    (setParents g a l).blocksOf = g.blocksOf := rfl
theorem setParents_blockChunks_eq (g : CGraph) (a : Nat) (l : List Nat) :
    (setParents g a l).blockChunks = g.blockChunks := rfl
theorem setParents_blockReason_eq (g : CGraph) (a : Nat) (l : List Nat) :
    (setParents g a l).blockReason = g.blockReason := rfl

theorem setModules_children_eq (g : CGraph) (a : Nat) (l : List Nat) :
    (setModules g a l).children = g.children := rfl
theorem setModules_parents_eq (g : CGraph) (a : Nat) (l : List Nat) :
    (setModules g a l).parents = g.parents := rfl
theorem setModules_origins_eq (g : CGraph) (a : Nat) (l : List Nat) :
    (setModules g a l).origins = g.origins := rfl
theorem setModules_blocksOf_eq (g : CGraph) (a : Nat) (l : List Nat) :
    (setModules g a l).blocksOf = g.blocksOf := rfl
theorem setModules_blockChunks_eq (g : CGraph) (a : Nat) (l : List Nat) :
    (setModules g a l).blockChunks = g.blockChunks := rfl
theorem setModules_blockReason_eq (g : CGraph) (a : Nat) (l : List Nat) :
    (setModules g a l).blockReason = g.blockReason := rfl

theorem removeParentStep_eq (x : Nat) (h : CGraph) (p : Nat) :
    removeParentStep x h p =
      ((setChildren h p ((h.children p).erase x)).children x).foldl
        (shortCircuit p) (setChildren h p ((h.children p).erase x)) := rfl

/-- One parent-loop iteration of `remove` preserves the mid-loop
description. -/
theorem removeParentStep_mid (g0 : CGraph) (x p : Nat) (D : List Nat)
    (h : CGraph) (hCnd : (g0.children x).Nodup)
    (hp : p ∈ g0.parents x) (hpD : p ∉ D)
    (hm : RemoveMid g0 x D h) :
    RemoveMid g0 x (D ++ [p]) (removeParentStep x h p) := by
  rw [removeParentStep_eq]
  have f1 : (setChildren h p ((h.children p).erase x)).parents = h.parents :=
    setChildren_parents_eq h p _
  have hS_sub : ∀ c ∈ (setChildren h p ((h.children p).erase x)).children x,
      c ∈ g0.children x := by
    intro c hc
    by_cases hpx : p = x
    · subst hpx
      rw [setChildren_self] at hc
      have hc2 := List.erase_subset _ _ hc
      rw [hm.children_x, if_neg hpD] at hc2
      exact hc2
    · rw [setChildren_ne _ _ _ _ (Ne.symm hpx), hm.children_x] at hc
      by_cases hxD : x ∈ D
      · rw [if_pos hxD] at hc; exact List.erase_subset _ _ hc
      · rw [if_neg hxD] at hc; exact hc
  have hS_mem : ∀ c ∈ g0.children x, c ≠ x →
      c ∈ (setChildren h p ((h.children p).erase x)).children x := by
    intro c hc hcx
    by_cases hpx : p = x
    · subst hpx
      rw [setChildren_self]
      rw [(List.mem_erase_of_ne hcx : c ∈ (h.children p).erase p ↔ c ∈ h.children p)]
      rw [hm.children_x, if_neg hpD]
      exact hc
    · rw [setChildren_ne _ _ _ _ (Ne.symm hpx), hm.children_x]
      by_cases hxD : x ∈ D
      · rw [if_pos hxD]
        exact (List.mem_erase_of_ne hcx).mpr hc
      · rw [if_neg hxD]; exact hc
  have hpx' : p ∈ h.parents x := by rw [hm.parents_x]; exact hp
  refine ⟨?_, ?_, ?_, ?_, ?_, ?_, ?_, ?_, ?_, ?_, ?_, ?_, ?_⟩
  · -- parents_x
    rw [scFold_parents_noop p _ _ x (by rw [f1]; exact hpx'), f1, hm.parents_x]
  · -- children_x
    by_cases hpx : p = x
    · subst hpx
      rw [scFold_children_noop p _ _ (fun c hc => hc)]
      rw [setChildren_self]
      rw [if_pos (by simp)]
      have hcx := hm.children_x
      rw [if_neg hpD] at hcx
      rw [hcx]
    · rw [scFold_children_ne p _ _ x (Ne.symm hpx),
        setChildren_ne _ _ _ _ (Ne.symm hpx), hm.children_x]
      have : (x ∈ D ++ [p]) ↔ x ∈ D := by
        simp [List.mem_append, Ne.symm hpx, hpx]
      by_cases hxD : x ∈ D
      · rw [if_pos hxD, if_pos (this.mpr hxD)]
      · rw [if_neg hxD, if_neg (fun hmem => hxD (this.mp hmem))]
  · -- parents_char
    intro c hcx z
    rw [scFold_parents_mem, f1, hm.parents_char c hcx z]
    constructor
    · rintro ((hz | ⟨hzD, hcC⟩) | ⟨rfl, hcS⟩)
      · exact Or.inl hz
      · exact Or.inr ⟨List.mem_append_left _ hzD, hcC⟩
      · exact Or.inr ⟨List.mem_append_right _ (List.mem_singleton.mpr rfl),
          hS_sub c hcS⟩
    · rintro (hz | ⟨hzDp, hcC⟩)
      · exact Or.inl (Or.inl hz)
      · rcases List.mem_append.mp hzDp with hzD | hzp
        · exact Or.inl (Or.inr ⟨hzD, hcC⟩)
        · exact Or.inr ⟨List.mem_singleton.mp hzp, hS_mem c hcC hcx⟩
  · -- children_untouched
    intro q hqx hqDp
    have hqD : q ∉ D := fun hq => hqDp (List.mem_append_left _ hq)
    have hqp : q ≠ p := fun hq =>
      hqDp (List.mem_append_right _ (List.mem_singleton.mpr hq))
    rw [scFold_children_ne p _ _ q hqp, setChildren_ne _ _ _ _ hqp,
      hm.children_untouched q hqx hqD]
  · -- children_char
    intro q hq hqx z hzx
    rcases List.mem_append.mp hq with hqD | hqp
    · have hqp : q ≠ p := fun he => hpD (he ▸ hqD)
      rw [scFold_children_ne p _ _ q hqp, setChildren_ne _ _ _ _ hqp]
      exact hm.children_char q hqD hqx z hzx
    · have hqp := List.mem_singleton.mp hqp
      subst hqp
      rw [scFold_children_mem, setChildren_self]
      have hq0 : h.children q = g0.children q :=
        hm.children_untouched q hqx hpD
      constructor
      · rintro (hz | ⟨-, hzS⟩)
        · exact Or.inl (by rw [← hq0]; exact (List.mem_erase_of_ne hzx).mp hz)
        · exact Or.inr (hS_sub z hzS)
      · rintro (hz | hzC)
        · exact Or.inl ((List.mem_erase_of_ne hzx).mpr (by rw [hq0]; exact hz))
        · exact Or.inr ⟨rfl, hS_mem z hzC hzx⟩
  · -- children_x_mem
    intro q hq hqx hxmem
    rcases List.mem_append.mp hq with hqD | hqp
    · have hqp : q ≠ p := fun he => hpD (he ▸ hqD)
      rw [scFold_children_ne p _ _ q hqp, setChildren_ne _ _ _ _ hqp] at hxmem
      exact hm.children_x_mem q hqD hqx hxmem
    · have hqp := List.mem_singleton.mp hqp
      subst hqp
      rw [scFold_children_mem, setChildren_self] at hxmem
      rcases hxmem with hz | ⟨-, hzS⟩
      · rw [hm.children_untouched q hqx hpD] at hz
        exact Or.inl hz
      · exact Or.inr (hS_sub x hzS)
  · -- nodup_children
    intro q hq0
    apply scFold_children_nodup
    by_cases hqp : q = p
    · subst hqp
      rw [setChildren_self]
      exact (hm.nodup_children q hq0).erase x
    · rw [setChildren_ne _ _ _ _ hqp]
      exact hm.nodup_children q hq0
  · -- nodup_parents
    intro q hq0
    apply scFold_parents_nodup
    rw [f1]
    exact hm.nodup_parents q hq0
  · rw [scFold_modules, setChildren_modules_eq, hm.modules_eq]
  · rw [scFold_origins, setChildren_origins_eq, hm.origins_eq]
  · rw [scFold_blocksOf, setChildren_blocksOf_eq, hm.blocksOf_eq]
  · rw [scFold_blockChunks, setChildren_blockChunks_eq, hm.blockChunks_eq]
  · rw [scFold_blockReason, setChildren_blockReason_eq, hm.blockReason_eq]

/-- Running `remove`'s parent loop over a suffix of the parent snapshot
extends the mid-loop description to the processed prefix. -/
theorem removeLoop1 (g0 : CGraph) (x : Nat) (hCnd : (g0.children x).Nodup) :
    ∀ (todo D : List Nat) (h : CGraph),
      g0.parents x = D ++ todo → (D ++ todo).Nodup →
      RemoveMid g0 x D h →
      RemoveMid g0 x (D ++ todo) (todo.foldl (removeParentStep x) h) := by
  intro todo
  induction todo with
  | nil =>
    intro D h _ _ hm
    simpa using hm
  | cons p todo' ih =>
    intro D h hsnap hnd hm
    have hp : p ∈ g0.parents x := by
      rw [hsnap]
      exact List.mem_append_right _ (List.mem_cons_self _ _)
    have hpD : p ∉ D := by
      intro hmem
      rcases List.nodup_append.mp hnd with ⟨-, -, hdisj⟩
      exact hdisj hmem (List.mem_cons_self _ _)
    have hstep := removeParentStep_mid g0 x p D h hCnd hp hpD hm
    have hsnap' : g0.parents x = (D ++ [p]) ++ todo' := by
      rw [hsnap, List.append_assoc, List.singleton_append]
    have hnd' : ((D ++ [p]) ++ todo').Nodup := by
      rw [List.append_assoc, List.singleton_append]
      exact hnd
    have := ih (D ++ [p]) (removeParentStep x h p) hsnap' hnd' hstep
    rw [List.append_assoc, List.singleton_append] at this
    exact this

/-- Mid-loop description after the whole parent loop of `remove`. -/
theorem removeLoop1_total (g0 : CGraph) (x : Nat)
    (hCnd : (g0.children x).Nodup) (hPnd : (g0.parents x).Nodup) :
    RemoveMid g0 x (g0.parents x)
      ((g0.parents x).foldl (removeParentStep x) g0) := by
  have base : RemoveMid g0 x [] g0 := by
    refine ⟨rfl, by simp, ?_, fun q _ _ => rfl, ?_, ?_, fun q h => h, fun q h => h,
      rfl, rfl, rfl, rfl, rfl⟩
    · intro c _ z; simp
    · intro q hq; simp at hq
    · intro q hq; simp at hq
  have := removeLoop1 g0 x hCnd (g0.parents x) [] g0 (by simp) (by simpa using hPnd) base
  simpa using this

theorem clearParentStep_parents (x : Nat) (h : CGraph) (c q : Nat) :
    (clearParentStep x h c).parents q =
      if q = c then (h.parents c).erase x else h.parents q := by
  unfold clearParentStep
  by_cases hq : q = c
  · subst hq; rw [setParents_self, if_pos rfl]
  · rw [setParents_ne _ _ _ _ hq, if_neg hq]

theorem clearParentStep_children (x : Nat) (h : CGraph) (c : Nat) :
    (clearParentStep x h c).children = h.children := rfl
theorem clearParentStep_modules (x : Nat) (h : CGraph) (c : Nat) :
    (clearParentStep x h c).modules = h.modules := rfl
theorem clearParentStep_origins (x : Nat) (h : CGraph) (c : Nat) :
    (clearParentStep x h c).origins = h.origins := rfl
theorem clearParentStep_blocksOf (x : Nat) (h : CGraph) (c : Nat) :
    (clearParentStep x h c).blocksOf = h.blocksOf := rfl
theorem clearParentStep_blockChunks (x : Nat) (h : CGraph) (c : Nat) :
    (clearParentStep x h c).blockChunks = h.blockChunks := rfl
theorem clearParentStep_blockReason (x : Nat) (h : CGraph) (c : Nat) :
    (clearParentStep x h c).blockReason = h.blockReason := rfl

theorem cpFold_children (x : Nat) :
    ∀ (T : List Nat) (h : CGraph),
      (T.foldl (clearParentStep x) h).children = h.children := by
  intro T
  induction T with
  | nil => intro h; rfl
  | cons c0 T' ih =>
    intro h
    rw [List.foldl_cons, ih, clearParentStep_children]

theorem cpFold_parents (x : Nat) :
    ∀ (T : List Nat) (h : CGraph) (c : Nat), T.Nodup →
      (T.foldl (clearParentStep x) h).parents c =
        if c ∈ T then (h.parents c).erase x else h.parents c := by
  intro T
  induction T with
  | nil => intro h c _; simp
  | cons c0 T' ih =>
    intro h c hnd
    rw [List.foldl_cons, ih _ c (List.Nodup.of_cons hnd)]
    by_cases hc : c = c0
    · subst hc
      have hcT' : c ∉ T' := (List.nodup_cons.mp hnd).1
      rw [if_neg hcT', clearParentStep_parents, if_pos rfl,
        if_pos (List.mem_cons_self _ _)]
    · rw [clearParentStep_parents, if_neg hc]
      by_cases hcT : c ∈ T'
      · rw [if_pos hcT, if_pos (List.mem_cons_of_mem _ hcT)]
      · rw [if_neg hcT, if_neg (by
          intro hmem
          rcases List.mem_cons.mp hmem with h1 | h2
          · exact hc h1
          · exact hcT h2)]

theorem cpFold_modules (x : Nat) :
    ∀ (T : List Nat) (h : CGraph),
      (T.foldl (clearParentStep x) h).modules = h.modules := by
  intro T
  induction T with
  | nil => intro h; rfl
  | cons c0 T' ih => intro h; rw [List.foldl_cons, ih, clearParentStep_modules]

theorem cpFold_origins (x : Nat) :
    ∀ (T : List Nat) (h : CGraph),
      (T.foldl (clearParentStep x) h).origins = h.origins := by
  intro T
  induction T with
  | nil => intro h; rfl
  | cons c0 T' ih => intro h; rw [List.foldl_cons, ih, clearParentStep_origins]

theorem cpFold_blocksOf (x : Nat) :
    ∀ (T : List Nat) (h : CGraph),
      (T.foldl (clearParentStep x) h).blocksOf = h.blocksOf := by
  intro T
  induction T with
  | nil => intro h; rfl
  | cons c0 T' ih => intro h; rw [List.foldl_cons, ih, clearParentStep_blocksOf]

theorem cpFold_blockChunks (x : Nat) :
    ∀ (T : List Nat) (h : CGraph),
      (T.foldl (clearParentStep x) h).blockChunks = h.blockChunks := by
  intro T
  induction T with
  | nil => intro h; rfl
  | cons c0 T' ih => intro h; rw [List.foldl_cons, ih, clearParentStep_blockChunks]

theorem cpFold_blockReason (x : Nat) :
    ∀ (T : List Nat) (h : CGraph),
      (T.foldl (clearParentStep x) h).blockReason = h.blockReason := by
  intro T
  induction T with
  | nil => intro h; rfl
  | cons c0 T' ih => intro h; rw [List.foldl_cons, ih, clearParentStep_blockReason]

/-! Transparency of the block phase of `remove`. -/

theorem removeBlockStep_children (x : Nat) (r : String) (h : CGraph) (b : Nat) :
    (removeBlockStep x r h b).children = h.children := by
  unfold removeBlockStep
  cases h.blockChunks b
  · rfl
  · dsimp only
    split
    · split <;> rfl
    · rfl

theorem removeBlockStep_parents (x : Nat) (r : String) (h : CGraph) (b : Nat) :
    (removeBlockStep x r h b).parents = h.parents := by
  unfold removeBlockStep
  cases h.blockChunks b
  · rfl
  · dsimp only
    split
    · split <;> rfl
    · rfl

theorem removeBlocks_children (g : CGraph) (x : Nat) (r : String) :
    (removeBlocks g x r).children = g.children := by
  unfold removeBlocks
  exact foldl_preserves (fun t => t.children = g.children)
    (removeBlockStep x r) (g.blocksOf x) g
    (fun t b _ ht => by
      show (removeBlockStep x r t b).children = g.children
      rw [removeBlockStep_children]
      exact ht) rfl

theorem removeBlocks_parents (g : CGraph) (x : Nat) (r : String) :
    (removeBlocks g x r).parents = g.parents := by
  unfold removeBlocks
  exact foldl_preserves (fun t => t.parents = g.parents)
    (removeBlockStep x r) (g.blocksOf x) g
    (fun t b _ ht => by
      show (removeBlockStep x r t b).parents = g.parents
      rw [removeBlockStep_parents]
      exact ht) rfl

/-- Mid-loop description of `removeLoop1Fn` inside the full `remove`, stated
against the original graph (the module phase does not touch edges). -/
theorem removeFn_mid (g : CGraph) (x : Nat)
    (hCnd : (g.children x).Nodup) (hPnd : (g.parents x).Nodup) :
    RemoveMid (setModules g x []) x (g.parents x)
      (removeLoop1Fn (setModules g x []) x) :=
  removeLoop1_total (setModules g x []) x hCnd hPnd

theorem removeFn_children_eq (g : CGraph) (x : Nat) (r : String) :
    (removeFn g x r).children =
      (removeLoop1Fn (setModules g x []) x).children := by
  unfold removeFn removeEdges
  rw [removeBlocks_children, cpFold_children]

theorem removeFn_parents_eq (g : CGraph) (x : Nat) (r : String)
    (hT : ((removeLoop1Fn (setModules g x []) x).children x).Nodup) (c : Nat) :
    (removeFn g x r).parents c =
      if c ∈ (removeLoop1Fn (setModules g x []) x).children x then
        ((removeLoop1Fn (setModules g x []) x).parents c).erase x
      else (removeLoop1Fn (setModules g x []) x).parents c := by
  unfold removeFn removeEdges
  rw [congrFun (removeBlocks_parents _ x r) c, cpFold_parents x _ _ c hT]

/-- C6 (amended): `remove` does not clear the removed chunk's own edge sets;
for a chunk with no self-edge both its `_parents` and `_chunks` are exactly
what they were before the call. -/
theorem remove_keeps_own_edges (g : CGraph) (x : Nat) (r : String)
    (hCnd : (g.children x).Nodup) (hPnd : (g.parents x).Nodup)
    (hxc : x ∉ g.children x) (hxp : x ∉ g.parents x) :
    (removeFn g x r).parents x = g.parents x ∧
      (removeFn g x r).children x = g.children x := by
  have hm := removeFn_mid g x hCnd hPnd
  have hcx : (removeLoop1Fn (setModules g x []) x).children x = g.children x := by
    rw [hm.children_x]
    exact if_neg hxp
  have hT : ((removeLoop1Fn (setModules g x []) x).children x).Nodup := by
    rw [hcx]; exact hCnd
  constructor
  · rw [removeFn_parents_eq g x r hT x, hcx, if_neg hxc, hm.parents_x,
      setModules_parents_eq]
  · rw [congrFun (removeFn_children_eq g x r) x, hcx]

/-- C6 counterexample: on the chain 1 → 0 → 2, after `(chunk 0).remove(r)`
chunk 0's own parent and child sets still hold 1 and 2 respectively — they
are not both empty as the claim states. -/
theorem remove_does_not_clear_own_edges_cex :
    (removeFn cgChain 0 "r").parents 0 = [1] ∧
      (removeFn cgChain 0 "r").children 0 = [2] ∧
      ¬ ((removeFn cgChain 0 "r").parents 0 = [] ∧
          (removeFn cgChain 0 "r").children 0 = []) := by
  decide

theorem remove_keeps_own_edges_witness :
    (removeFn cgChain 0 "r").parents 0 = cgChain.parents 0 ∧
      (removeFn cgChain 0 "r").children 0 = cgChain.children 0 :=
  remove_keeps_own_edges cgChain 0 "r" (by decide) (by decide) (by decide)
    (by decide)

/-- C2: for a chunk `x` with parent `p` and child `c` (no self-edges on
`x`), after `x.remove(reason)` the short-circuit edge `p → c` exists in both
directions, and `x` is gone from `p`'s children and from `c`'s parents. -/
theorem remove_short_circuits (g : CGraph) (x p c : Nat) (r : String)
    (hCnd : (g.children x).Nodup) (hPnd : (g.parents x).Nodup)
    (hxc : x ∉ g.children x) (hxp : x ∉ g.parents x)
    (hcpnd : (g.children p).Nodup) (hppnd : (g.parents c).Nodup)
    (hp : p ∈ g.parents x) (hc : c ∈ g.children x) :
    c ∈ (removeFn g x r).children p ∧ p ∈ (removeFn g x r).parents c ∧
      x ∉ (removeFn g x r).children p ∧ x ∉ (removeFn g x r).parents c := by
  have hm := removeFn_mid g x hCnd hPnd
  have hpx : p ≠ x := fun he => hxp (he ▸ hp)
  have hcx : c ≠ x := fun he => hxc (he ▸ hc)
  have hchx : (removeLoop1Fn (setModules g x []) x).children x = g.children x := by
    rw [hm.children_x]
    exact if_neg hxp
  have hT : ((removeLoop1Fn (setModules g x []) x).children x).Nodup := by
    rw [hchx]; exact hCnd
  refine ⟨?_, ?_, ?_, ?_⟩
  · rw [congrFun (removeFn_children_eq g x r) p]
    exact (hm.children_char p hp hpx c hcx).mpr (Or.inr hc)
  · rw [removeFn_parents_eq g x r hT c, hchx, if_pos hc]
    exact (List.mem_erase_of_ne hpx).mpr
      ((hm.parents_char c hcx p).mpr (Or.inr ⟨hp, hc⟩))
  · rw [congrFun (removeFn_children_eq g x r) p]
    intro hmem
    rcases hm.children_x_mem p hp hpx hmem with h1 | h2
    · exact absurd ((List.Nodup.mem_erase_iff hcpnd).mp h1).1 (by simp)
    · exact hxc h2
  · rw [removeFn_parents_eq g x r hT c, hchx, if_pos hc]
    intro hmem
    exact absurd ((List.Nodup.mem_erase_iff (hm.nodup_parents c hppnd)).mp hmem).1
      (by simp)

theorem remove_short_circuits_witness :
    2 ∈ (removeFn cgChain 0 "r").children 1 ∧
      1 ∈ (removeFn cgChain 0 "r").parents 2 ∧
      0 ∉ (removeFn cgChain 0 "r").children 1 ∧
      0 ∉ (removeFn cgChain 0 "r").parents 2 :=
  remove_short_circuits cgChain 0 1 2 "r" (by decide) (by decide) (by decide)
    (by decide) (by decide) (by decide) (by decide) (by decide)

/-! More setter accessors and phase-transparency lemmas for `integrate`. -/

theorem setModules_self (g : CGraph) (a : Nat) (l : List Nat) :
    (setModules g a l).modules a = l := by simp [setModules]
theorem setModules_ne (g : CGraph) (a : Nat) (l : List Nat) (q : Nat)
    (h : q ≠ a) : (setModules g a l).modules q = g.modules q := by
  simp [setModules, h]

theorem setOrigins_self (g : CGraph) (a : Nat) (l : List Origin) :
    (setOrigins g a l).origins a = l := by simp [setOrigins]
theorem setOrigins_ne (g : CGraph) (a : Nat) (l : List Origin) (q : Nat)
    (h : q ≠ a) : (setOrigins g a l).origins q = g.origins q := by
  simp [setOrigins, h]
theorem setOrigins_children_eq (g : CGraph) (a : Nat) (l : List Origin) :
    (setOrigins g a l).children = g.children := rfl
theorem setOrigins_parents_eq (g : CGraph) (a : Nat) (l : List Origin) :
    (setOrigins g a l).parents = g.parents := rfl
theorem setOrigins_blocksOf_eq (g : CGraph) (a : Nat) (l : List Origin) :
    (setOrigins g a l).blocksOf = g.blocksOf := rfl
theorem setOrigins_blockChunks_eq (g : CGraph) (a : Nat) (l : List Origin) :
    (setOrigins g a l).blockChunks = g.blockChunks := rfl
theorem setOrigins_blockReason_eq (g : CGraph) (a : Nat) (l : List Origin) :
    (setOrigins g a l).blockReason = g.blockReason := rfl

theorem setBlocksOf_self (g : CGraph) (a : Nat) (l : List Nat) :
    (setBlocksOf g a l).blocksOf a = l := by simp [setBlocksOf]
theorem setBlocksOf_ne (g : CGraph) (a : Nat) (l : List Nat) (q : Nat)
    (h : q ≠ a) : (setBlocksOf g a l).blocksOf q = g.blocksOf q := by
  simp [setBlocksOf, h]
theorem setBlocksOf_children_eq (g : CGraph) (a : Nat) (l : List Nat) :
    (setBlocksOf g a l).children = g.children := rfl
theorem setBlocksOf_parents_eq (g : CGraph) (a : Nat) (l : List Nat) :
    (setBlocksOf g a l).parents = g.parents := rfl
theorem setBlocksOf_origins_eq (g : CGraph) (a : Nat) (l : List Nat) :
    (setBlocksOf g a l).origins = g.origins := rfl
theorem setBlocksOf_blockChunks_eq (g : CGraph) (a : Nat) (l : List Nat) :
    (setBlocksOf g a l).blockChunks = g.blockChunks := rfl
theorem setBlocksOf_blockReason_eq (g : CGraph) (a : Nat) (l : List Nat) :
    (setBlocksOf g a l).blockReason = g.blockReason := rfl

theorem setBlockChunks_self (g : CGraph) (b : Nat) (v : Option (List Nat)) :
    (setBlockChunks g b v).blockChunks b = v := by simp [setBlockChunks]
theorem setBlockChunks_ne (g : CGraph) (b : Nat) (v : Option (List Nat))
    (q : Nat) (h : q ≠ b) :
    (setBlockChunks g b v).blockChunks q = g.blockChunks q := by
  simp [setBlockChunks, h]
theorem setBlockChunks_children_eq (g : CGraph) (b : Nat) (v : Option (List Nat)) :
    (setBlockChunks g b v).children = g.children := rfl
theorem setBlockChunks_parents_eq (g : CGraph) (b : Nat) (v : Option (List Nat)) :
    (setBlockChunks g b v).parents = g.parents := rfl
theorem setBlockChunks_origins_eq (g : CGraph) (b : Nat) (v : Option (List Nat)) :
    (setBlockChunks g b v).origins = g.origins := rfl
theorem setBlockChunks_blocksOf_eq (g : CGraph) (b : Nat) (v : Option (List Nat)) :
    (setBlockChunks g b v).blocksOf = g.blocksOf := rfl
theorem setBlockChunks_blockReason_eq (g : CGraph) (b : Nat) (v : Option (List Nat)) :
    (setBlockChunks g b v).blockReason = g.blockReason := rfl

theorem setBlockReason_self (g : CGraph) (b : Nat) (v : Option String) :
    (setBlockReason g b v).blockReason b = v := by simp [setBlockReason]
theorem setBlockReason_ne (g : CGraph) (b : Nat) (v : Option String)
    (q : Nat) (h : q ≠ b) :
    (setBlockReason g b v).blockReason q = g.blockReason q := by
  simp [setBlockReason, h]
theorem setBlockReason_children_eq (g : CGraph) (b : Nat) (v : Option String) :
    (setBlockReason g b v).children = g.children := rfl
theorem setBlockReason_parents_eq (g : CGraph) (b : Nat) (v : Option String) :
    (setBlockReason g b v).parents = g.parents := rfl
theorem setBlockReason_origins_eq (g : CGraph) (b : Nat) (v : Option String) :
    (setBlockReason g b v).origins = g.origins := rfl
theorem setBlockReason_blocksOf_eq (g : CGraph) (b : Nat) (v : Option String) :
    (setBlockReason g b v).blocksOf = g.blocksOf := rfl
theorem setBlockReason_blockChunks_eq (g : CGraph) (b : Nat) (v : Option String) :
    (setBlockReason g b v).blockChunks = g.blockChunks := rfl

theorem moveModule_origins (g : CGraph) (s m t : Nat) :
    (moveModule g s m t).origins = g.origins := rfl
theorem moveModule_children (g : CGraph) (s m t : Nat) :
    (moveModule g s m t).children = g.children := rfl
theorem moveModule_parents (g : CGraph) (s m t : Nat) :
    (moveModule g s m t).parents = g.parents := rfl
theorem moveModule_blocksOf (g : CGraph) (s m t : Nat) :
    (moveModule g s m t).blocksOf = g.blocksOf := rfl
theorem moveModule_blockChunks (g : CGraph) (s m t : Nat) :
    (moveModule g s m t).blockChunks = g.blockChunks := rfl
theorem moveModule_blockReason (g : CGraph) (s m t : Nat) :
    (moveModule g s m t).blockReason = g.blockReason := rfl

theorem replaceChunk_origins (g : CGraph) (s o n : Nat) :
    (replaceChunk g s o n).origins = g.origins := by
  unfold replaceChunk
  split
  · dsimp only
    split
    · rw [addChunk_origins, addParent_origins, setChildren_origins_eq]
    · rw [addParent_origins, setChildren_origins_eq]
  · rw [setChildren_origins_eq]

theorem replaceChunk_modules (g : CGraph) (s o n : Nat) :
    (replaceChunk g s o n).modules = g.modules := by
  unfold replaceChunk
  split
  · dsimp only
    split
    · rw [addChunk_modules, addParent_modules, setChildren_modules_eq]
    · rw [addParent_modules, setChildren_modules_eq]
  · rw [setChildren_modules_eq]

theorem replaceChunk_blocksOf (g : CGraph) (s o n : Nat) :
    (replaceChunk g s o n).blocksOf = g.blocksOf := by
  unfold replaceChunk
  split
  · dsimp only
    split
    · rw [addChunk_blocksOf, addParent_blocksOf, setChildren_blocksOf_eq]
    · rw [addParent_blocksOf, setChildren_blocksOf_eq]
  · rw [setChildren_blocksOf_eq]

theorem replaceChunk_blockChunks (g : CGraph) (s o n : Nat) :
    (replaceChunk g s o n).blockChunks = g.blockChunks := by
  unfold replaceChunk
  split
  · dsimp only
    split
    · rw [addChunk_blockChunks, addParent_blockChunks, setChildren_blockChunks_eq]
    · rw [addParent_blockChunks, setChildren_blockChunks_eq]
  · rw [setChildren_blockChunks_eq]

theorem replaceChunk_blockReason (g : CGraph) (s o n : Nat) :
    (replaceChunk g s o n).blockReason = g.blockReason := by
  unfold replaceChunk
  split
  · dsimp only
    split
    · rw [addChunk_blockReason, addParent_blockReason, setChildren_blockReason_eq]
    · rw [addParent_blockReason, setChildren_blockReason_eq]
  · rw [setChildren_blockReason_eq]

theorem replaceParentChunk_origins (g : CGraph) (s o n : Nat) :
    (replaceParentChunk g s o n).origins = g.origins := by
  unfold replaceParentChunk
  split
  · dsimp only
    split
    · rw [addParent_origins, addChunk_origins, setParents_origins_eq]
    · rw [addChunk_origins, setParents_origins_eq]
  · rw [setParents_origins_eq]

theorem replaceParentChunk_modules (g : CGraph) (s o n : Nat) :
    (replaceParentChunk g s o n).modules = g.modules := by
  unfold replaceParentChunk
  split
  · dsimp only
    split
    · rw [addParent_modules, addChunk_modules, setParents_modules_eq]
    · rw [addChunk_modules, setParents_modules_eq]
  · rw [setParents_modules_eq]

theorem replaceParentChunk_blocksOf (g : CGraph) (s o n : Nat) :
    (replaceParentChunk g s o n).blocksOf = g.blocksOf := by
  unfold replaceParentChunk
  split
  · dsimp only
    split
    · rw [addParent_blocksOf, addChunk_blocksOf, setParents_blocksOf_eq]
    · rw [addChunk_blocksOf, setParents_blocksOf_eq]
  · rw [setParents_blocksOf_eq]

theorem replaceParentChunk_blockChunks (g : CGraph) (s o n : Nat) :
    (replaceParentChunk g s o n).blockChunks = g.blockChunks := by
  unfold replaceParentChunk
  split
  · dsimp only
    split
    · rw [addParent_blockChunks, addChunk_blockChunks, setParents_blockChunks_eq]
    · rw [addChunk_blockChunks, setParents_blockChunks_eq]
  · rw [setParents_blockChunks_eq]

theorem replaceParentChunk_blockReason (g : CGraph) (s o n : Nat) :
    (replaceParentChunk g s o n).blockReason = g.blockReason := by
  unfold replaceParentChunk
  split
  · dsimp only
    split
    · rw [addParent_blockReason, addChunk_blockReason, setParents_blockReason_eq]
    · rw [addChunk_blockReason, setParents_blockReason_eq]
  · rw [setParents_blockReason_eq]

theorem integrateBlockStep_origins (s o : Nat) (r : String) (h : CGraph)
    (b : Nat) : (integrateBlockStep s o r h b).origins = h.origins := by
  unfold integrateBlockStep
  split <;> (dsimp only; split <;> rfl)

theorem integrateBlockStep_children (s o : Nat) (r : String) (h : CGraph)
    (b : Nat) : (integrateBlockStep s o r h b).children = h.children := by
  unfold integrateBlockStep
  split <;> (dsimp only; split <;> rfl)

theorem integrateBlockStep_parents (s o : Nat) (r : String) (h : CGraph)
    (b : Nat) : (integrateBlockStep s o r h b).parents = h.parents := by
  unfold integrateBlockStep
  split <;> (dsimp only; split <;> rfl)

/-! Origin transparency of `integrate`'s non-origin phases, and C7. -/

theorem intModules_origins (g : CGraph) (a b : Nat) :
    (intModules g a b).origins = g.origins := by
  unfold intModules
  rw [setModules_origins_eq]
  exact foldl_preserves (fun t => t.origins = g.origins)
    (fun h m => moveModule h b m a) (g.modules b) g
    (fun t m _ ht => by
      show (moveModule t b m a).origins = g.origins
      rw [moveModule_origins]; exact ht) rfl

theorem intParents_origins (g : CGraph) (a b : Nat) :
    (intParents g a b).origins = g.origins := by
  unfold intParents
  rw [setParents_origins_eq]
  exact foldl_preserves (fun t => t.origins = g.origins)
    (fun h p => replaceChunk h p b a) (g.parents b) g
    (fun t p _ ht => by
      show (replaceChunk t p b a).origins = g.origins
      rw [replaceChunk_origins]; exact ht) rfl

theorem intChildren_origins (g : CGraph) (a b : Nat) :
    (intChildren g a b).origins = g.origins := by
  unfold intChildren
  rw [setChildren_origins_eq]
  exact foldl_preserves (fun t => t.origins = g.origins)
    (fun h c => replaceParentChunk h c b a) (g.children b) g
    (fun t c _ ht => by
      show (replaceParentChunk t c b a).origins = g.origins
      rw [replaceParentChunk_origins]; exact ht) rfl

theorem intBlocks_origins (g : CGraph) (a b : Nat) (r : String) :
    (intBlocks g a b r).origins = g.origins := by
  unfold intBlocks
  rw [setBlocksOf_origins_eq]
  exact foldl_preserves (fun t => t.origins = g.origins)
    (integrateBlockStep a b r) (g.blocksOf b) g
    (fun t c _ ht => by
      show (integrateBlockStep a b r t c).origins = g.origins
      rw [integrateBlockStep_origins]; exact ht) rfl

theorem intCleanup_origins (g : CGraph) (a b : Nat) :
    (intCleanup g a b).origins = g.origins := rfl

theorem intOrigins_self (g : CGraph) (a b : Nat) (r : String) :
    (intOrigins g a b r).origins a =
      ((g.origins a ++ g.origins b).map (applyReasonToOrigin r)) := by
  unfold intOrigins
  rw [setOrigins_self, setOrigins_self]

theorem applyReasonToOrigin_head (r : String) (o : Origin) :
    ∃ rs, (applyReasonToOrigin r o).reasons = some rs ∧ rs.head? = some r := by
  unfold applyReasonToOrigin
  cases hco : o.reasons with
  | none => exact ⟨[r], rfl, rfl⟩
  | some rs =>
    dsimp only
    by_cases h : rs.head? = some r
    · rw [if_neg (not_not_intro h)]
      exact ⟨rs, hco, h⟩
    · rw [if_pos h]
      exact ⟨r :: rs, rfl, rfl⟩

/-- C7 (amended): a successful `integrate` appends `other`'s origins and then
applies the reason update to every origin of the combined list — the
appended origins included: afterwards every origin of `self` carries a
reasons history headed by `reason`. -/
theorem integrate_origins_characterization (g : CGraph) (a b : Nat)
    (r : String) (hg : canBeIntegrated g a b = true) :
    (integrate g a b r).1.origins a =
      (g.origins a ++ g.origins b).map (applyReasonToOrigin r) ∧
    ∀ o ∈ (integrate g a b r).1.origins a,
      ∃ rs, o.reasons = some rs ∧ rs.head? = some r := by
  have hor : (integrate g a b r).1.origins a =
      (g.origins a ++ g.origins b).map (applyReasonToOrigin r) := by
    unfold integrate
    rw [if_neg (by simp [hg])]
    show (intCleanup (intOrigins _ a b r) a b).origins a = _
    rw [congrFun (intCleanup_origins _ a b) a, intOrigins_self]
    rw [congrFun (intBlocks_origins _ a b r) a,
      congrFun (intBlocks_origins _ a b r) b,
      congrFun (intChildren_origins _ a b) a,
      congrFun (intChildren_origins _ a b) b,
      congrFun (intParents_origins _ a b) a,
      congrFun (intParents_origins _ a b) b,
      congrFun (intModules_origins _ a b) a,
      congrFun (intModules_origins _ a b) b]
  refine ⟨hor, ?_⟩
  intro o ho
  rw [hor] at ho
  rcases List.mem_map.mp ho with ⟨o', -, rfl⟩
  exact applyReasonToOrigin_head r o'

/-- C7 counterexample: `other`'s origin, which had no reasons list before the
merge, ends up with reasons `["r"]` after `integrate` — the appended origins
do receive the reason, contrary to the claim. -/
theorem integrate_reasons_appended_origin_cex :
    cgMerge.origins 1 = [{ module := 5, loc := "l1", name := none, reasons := none }] ∧
    canBeIntegrated cgMerge 0 1 = true ∧
    (integrate cgMerge 0 1 "r").1.origins 0 =
      [{ module := 6, loc := "l0", name := none, reasons := some ["r", "old"] },
        { module := 5, loc := "l1", name := none, reasons := some ["r"] }] := by
  decide

theorem integrate_origins_characterization_witness :
    (integrate cgMerge 0 1 "r").1.origins 0 =
      (cgMerge.origins 0 ++ cgMerge.origins 1).map (applyReasonToOrigin "r") :=
  (integrate_origins_characterization cgMerge 0 1 "r" (by decide)).1

/-! Block-phase lemmas for C8. -/

instance (g : CGraph) (r : String) (b : Nat) : Decidable (GoodBlock g r b) :=
  decidable_of_iff
    ((g.blockChunks b ≠ none ∧ g.blockChunks b ≠ some []) ∨
      (g.blockChunks b = none ∧ g.blockReason b = some r)) (by
    constructor
    · rintro (⟨h1, h2⟩ | h)
      · left
        cases hv : g.blockChunks b with
        | none => exact absurd hv h1
        | some l => exact ⟨l, rfl, fun he => h2 (by rw [hv, he])⟩
      · exact Or.inr h
    · rintro (⟨l, hl, hne⟩ | h)
      · exact Or.inl ⟨by rw [hl]; simp, by rw [hl]; simpa using hne⟩
      · exact Or.inr h)

theorem removeBlockStep_ne (x : Nat) (r : String) (t : CGraph) (b0 blk : Nat)
    (h : blk ≠ b0) :
    (removeBlockStep x r t b0).blockChunks blk = t.blockChunks blk ∧
      (removeBlockStep x r t b0).blockReason blk = t.blockReason blk := by
  unfold removeBlockStep
  cases t.blockChunks b0
  · exact ⟨rfl, rfl⟩
  · dsimp only
    split
    · split
      · rw [setBlockReason_ne _ _ _ _ h,
          congrFun (setBlockReason_blockChunks_eq _ _ _) blk,
          setBlockChunks_ne _ _ _ _ h,
          congrFun (setBlockChunks_blockReason_eq _ _ _) blk]
        exact ⟨rfl, rfl⟩
      · rw [setBlockChunks_ne _ _ _ _ h,
          congrFun (setBlockChunks_blockReason_eq _ _ _) blk]
        exact ⟨rfl, rfl⟩
    · exact ⟨rfl, rfl⟩

/-- After one `remove` block iteration, every block is either in the good
state or untouched. -/
theorem removeBlocks_good (x : Nat) (r : String) :
    ∀ (L : List Nat) (t0 : CGraph) (t : CGraph),
        (∀ blk, GoodBlock t r blk ∨
          (t.blockChunks blk = t0.blockChunks blk ∧
            t.blockReason blk = t0.blockReason blk)) →
        ∀ blk, GoodBlock (L.foldl (removeBlockStep x r) t) r blk ∨
          ((L.foldl (removeBlockStep x r) t).blockChunks blk = t0.blockChunks blk ∧
            (L.foldl (removeBlockStep x r) t).blockReason blk = t0.blockReason blk) := by
  intro L t0
  induction L with
  | nil => intro t ht blk; exact ht blk
  | cons b0 L' ih =>
    intro t ht blk
    rw [List.foldl_cons]
    apply ih
    intro blk'
    by_cases hb : blk' = b0
    · subst hb
      cases hv : t.blockChunks blk' with
      | none =>
        have hstep : removeBlockStep x r t blk' = t := by
          unfold removeBlockStep
          rw [hv]
        rw [hstep]
        exact ht blk'
      | some l =>
        by_cases hxl : x ∈ l
        · by_cases hemp : l.erase x = []
          · left
            have hstep : removeBlockStep x r t blk' =
                setBlockReason (setBlockChunks t blk' none) blk' (some r) := by
              unfold removeBlockStep
              rw [hv]
              dsimp only
              rw [if_pos hxl, if_pos hemp]
            rw [hstep]
            right
            constructor
            · rw [congrFun (setBlockReason_blockChunks_eq _ _ _) blk',
                setBlockChunks_self]
            · rw [setBlockReason_self]
          · left
            have hstep : removeBlockStep x r t blk' =
                setBlockChunks t blk' (some (l.erase x)) := by
              unfold removeBlockStep
              rw [hv]
              dsimp only
              rw [if_pos hxl, if_neg hemp]
            rw [hstep]
            exact Or.inl ⟨l.erase x, setBlockChunks_self t blk' _, hemp⟩
        · have hstep : removeBlockStep x r t blk' = t := by
            unfold removeBlockStep
            rw [hv]
            dsimp only
            rw [if_neg hxl]
          rw [hstep]
          exact ht blk'
    · rcases removeBlockStep_ne x r t b0 blk' hb with ⟨h1, h2⟩
      rcases ht blk' with hgood | ⟨h3, h4⟩
      · left
        rcases hgood with ⟨l, hl, hne⟩ | ⟨hn, hr⟩
        · exact Or.inl ⟨l, by rw [h1]; exact hl, hne⟩
        · exact Or.inr ⟨by rw [h1]; exact hn, by rw [h2]; exact hr⟩
      · exact Or.inr ⟨by rw [h1]; exact h3, by rw [h2]; exact h4⟩

/-! Block-field transparency of `remove`'s edge phase and `integrate`'s
edge/module phases. -/

theorem removeParentStep_blockChunks (x : Nat) (h : CGraph) (p : Nat) :
    (removeParentStep x h p).blockChunks = h.blockChunks := by
  rw [removeParentStep_eq, scFold_blockChunks, setChildren_blockChunks_eq]

theorem removeParentStep_blockReason (x : Nat) (h : CGraph) (p : Nat) :
    (removeParentStep x h p).blockReason = h.blockReason := by
  rw [removeParentStep_eq, scFold_blockReason, setChildren_blockReason_eq]

theorem removeParentStep_blocksOf (x : Nat) (h : CGraph) (p : Nat) :
    (removeParentStep x h p).blocksOf = h.blocksOf := by
  rw [removeParentStep_eq, scFold_blocksOf, setChildren_blocksOf_eq]

theorem removeEdges_blockChunks (g : CGraph) (x : Nat) :
    (removeEdges g x).blockChunks = g.blockChunks := by
  unfold removeEdges removeLoop1Fn
  rw [cpFold_blockChunks]
  exact foldl_preserves (fun t => t.blockChunks = g.blockChunks)
    (removeParentStep x) (g.parents x) g
    (fun t p _ ht => by
      show (removeParentStep x t p).blockChunks = g.blockChunks
      rw [removeParentStep_blockChunks]; exact ht) rfl

theorem removeEdges_blockReason (g : CGraph) (x : Nat) :
    (removeEdges g x).blockReason = g.blockReason := by
  unfold removeEdges removeLoop1Fn
  rw [cpFold_blockReason]
  exact foldl_preserves (fun t => t.blockReason = g.blockReason)
    (removeParentStep x) (g.parents x) g
    (fun t p _ ht => by
      show (removeParentStep x t p).blockReason = g.blockReason
      rw [removeParentStep_blockReason]; exact ht) rfl

theorem removeEdges_blocksOf (g : CGraph) (x : Nat) :
    (removeEdges g x).blocksOf = g.blocksOf := by
  unfold removeEdges removeLoop1Fn
  rw [cpFold_blocksOf]
  exact foldl_preserves (fun t => t.blocksOf = g.blocksOf)
    (removeParentStep x) (g.parents x) g
    (fun t p _ ht => by
      show (removeParentStep x t p).blocksOf = g.blocksOf
      rw [removeParentStep_blocksOf]; exact ht) rfl

theorem intModules_blockChunks (g : CGraph) (a b : Nat) :
    (intModules g a b).blockChunks = g.blockChunks := by
  unfold intModules
  rw [setModules_blockChunks_eq]
  exact foldl_preserves (fun t => t.blockChunks = g.blockChunks)
    (fun h m => moveModule h b m a) (g.modules b) g
    (fun t m _ ht => by
      show (moveModule t b m a).blockChunks = g.blockChunks
      rw [moveModule_blockChunks]; exact ht) rfl

theorem intModules_blockReason (g : CGraph) (a b : Nat) :
    (intModules g a b).blockReason = g.blockReason := by
  unfold intModules
  rw [setModules_blockReason_eq]
  exact foldl_preserves (fun t => t.blockReason = g.blockReason)
    (fun h m => moveModule h b m a) (g.modules b) g
    (fun t m _ ht => by
      show (moveModule t b m a).blockReason = g.blockReason
      rw [moveModule_blockReason]; exact ht) rfl

theorem intModules_blocksOf (g : CGraph) (a b : Nat) :
    (intModules g a b).blocksOf = g.blocksOf := by
  unfold intModules
  rw [setModules_blocksOf_eq]
  exact foldl_preserves (fun t => t.blocksOf = g.blocksOf)
    (fun h m => moveModule h b m a) (g.modules b) g
    (fun t m _ ht => by
      show (moveModule t b m a).blocksOf = g.blocksOf
      rw [moveModule_blocksOf]; exact ht) rfl

theorem intParents_blockChunks (g : CGraph) (a b : Nat) :
    (intParents g a b).blockChunks = g.blockChunks := by
  unfold intParents
  rw [setParents_blockChunks_eq]
  exact foldl_preserves (fun t => t.blockChunks = g.blockChunks)
    (fun h p => replaceChunk h p b a) (g.parents b) g
    (fun t p _ ht => by
      show (replaceChunk t p b a).blockChunks = g.blockChunks
      rw [replaceChunk_blockChunks]; exact ht) rfl

theorem intParents_blockReason (g : CGraph) (a b : Nat) :
    (intParents g a b).blockReason = g.blockReason := by
  unfold intParents
  rw [setParents_blockReason_eq]
  exact foldl_preserves (fun t => t.blockReason = g.blockReason)
    (fun h p => replaceChunk h p b a) (g.parents b) g
    (fun t p _ ht => by
      show (replaceChunk t p b a).blockReason = g.blockReason
      rw [replaceChunk_blockReason]; exact ht) rfl

theorem intParents_blocksOf (g : CGraph) (a b : Nat) :
    (intParents g a b).blocksOf = g.blocksOf := by
  unfold intParents
  rw [setParents_blocksOf_eq]
  exact foldl_preserves (fun t => t.blocksOf = g.blocksOf)
    (fun h p => replaceChunk h p b a) (g.parents b) g
    (fun t p _ ht => by
      show (replaceChunk t p b a).blocksOf = g.blocksOf
      rw [replaceChunk_blocksOf]; exact ht) rfl

theorem intChildren_blockChunks (g : CGraph) (a b : Nat) :
    (intChildren g a b).blockChunks = g.blockChunks := by
  unfold intChildren
  rw [setChildren_blockChunks_eq]
  exact foldl_preserves (fun t => t.blockChunks = g.blockChunks)
    (fun h c => replaceParentChunk h c b a) (g.children b) g
    (fun t c _ ht => by
      show (replaceParentChunk t c b a).blockChunks = g.blockChunks
      rw [replaceParentChunk_blockChunks]; exact ht) rfl

theorem intChildren_blockReason (g : CGraph) (a b : Nat) :
    (intChildren g a b).blockReason = g.blockReason := by
  unfold intChildren
  rw [setChildren_blockReason_eq]
  exact foldl_preserves (fun t => t.blockReason = g.blockReason)
    (fun h c => replaceParentChunk h c b a) (g.children b) g
    (fun t c _ ht => by
      show (replaceParentChunk t c b a).blockReason = g.blockReason
      rw [replaceParentChunk_blockReason]; exact ht) rfl

theorem intChildren_blocksOf (g : CGraph) (a b : Nat) :
    (intChildren g a b).blocksOf = g.blocksOf := by
  unfold intChildren
  rw [setChildren_blocksOf_eq]
  exact foldl_preserves (fun t => t.blocksOf = g.blocksOf)
    (fun h c => replaceParentChunk h c b a) (g.children b) g
    (fun t c _ ht => by
      show (replaceParentChunk t c b a).blocksOf = g.blocksOf
      rw [replaceParentChunk_blocksOf]; exact ht) rfl

theorem intOrigins_blockChunks (g : CGraph) (a b : Nat) (r : String) :
    (intOrigins g a b r).blockChunks = g.blockChunks := rfl

theorem intOrigins_blockReason (g : CGraph) (a b : Nat) (r : String) :
    (intOrigins g a b r).blockReason = g.blockReason := rfl

theorem intCleanup_blockChunks (g : CGraph) (a b : Nat) :
    (intCleanup g a b).blockChunks = g.blockChunks := rfl

theorem intCleanup_blockReason (g : CGraph) (a b : Nat) :
    (intCleanup g a b).blockReason = g.blockReason := rfl

theorem integrateBlockStep_ne (a b : Nat) (r : String) (t : CGraph)
    (b0 blk : Nat) (h : blk ≠ b0) :
    (integrateBlockStep a b r t b0).blockChunks blk = t.blockChunks blk ∧
      (integrateBlockStep a b r t b0).blockReason blk = t.blockReason blk := by
  unfold integrateBlockStep
  dsimp only
  split
  · rw [congrFun (setBlockReason_blockChunks_eq _ _ _) blk,
      setBlockChunks_ne _ _ _ _ h, setBlockReason_ne _ _ _ _ h,
      congrFun (setBlockChunks_blockReason_eq _ _ _) blk]
    exact ⟨rfl, rfl⟩
  · rw [congrFun (setBlocksOf_blockChunks_eq _ _ _) blk,
      congrFun (setBlockReason_blockChunks_eq _ _ _) blk,
      setBlockChunks_ne _ _ _ _ h,
      congrFun (setBlocksOf_blockReason_eq _ _ _) blk,
      setBlockReason_ne _ _ _ _ h,
      congrFun (setBlockChunks_blockReason_eq _ _ _) blk]
    exact ⟨rfl, rfl⟩

theorem integrateBlockStep_self (a b : Nat) (r : String) (t : CGraph) (b0 : Nat) :
    (integrateBlockStep a b r t b0).blockChunks b0 =
      some (match t.blockChunks b0 with
        | some l => l.map (fun c => if c = b then a else c)
        | none => [a]) ∧
      (integrateBlockStep a b r t b0).blockReason b0 = some r := by
  unfold integrateBlockStep
  dsimp only
  split
  · rw [congrFun (setBlockReason_blockChunks_eq _ _ _) b0, setBlockChunks_self,
      setBlockReason_self]
    exact ⟨rfl, rfl⟩
  · rw [congrFun (setBlocksOf_blockChunks_eq _ _ _) b0,
      congrFun (setBlockReason_blockChunks_eq _ _ _) b0, setBlockChunks_self,
      congrFun (setBlocksOf_blockReason_eq _ _ _) b0, setBlockReason_self]
    exact ⟨rfl, rfl⟩

theorem integrateBlockStep_done (a b : Nat) (r : String) (t : CGraph)
    (b1 blk : Nat)
    (hd : ∃ l, t.blockChunks blk = some l ∧ l ≠ [] ∧
      t.blockReason blk = some r) :
    ∃ l, (integrateBlockStep a b r t b1).blockChunks blk = some l ∧ l ≠ [] ∧
      (integrateBlockStep a b r t b1).blockReason blk = some r := by
  rcases hd with ⟨l, hl, hne, hr⟩
  by_cases hb : blk = b1
  · subst hb
    rcases integrateBlockStep_self a b r t blk with ⟨h1, h2⟩
    rw [hl] at h1
    exact ⟨l.map (fun c => if c = b then a else c), h1,
      by simpa using hne, h2⟩
  · rcases integrateBlockStep_ne a b r t b1 blk hb with ⟨h1, h2⟩
    exact ⟨l, by rw [h1]; exact hl, hne, by rw [h2]; exact hr⟩

theorem intBlocksFold_done (a b : Nat) (r : String) :
    ∀ (L : List Nat) (t : CGraph),
      (∀ blk ∈ L,
        (∃ l, t.blockChunks blk = some l ∧ l ≠ []) ∨ t.blockChunks blk = none) →
      ∀ blk ∈ L, ∃ l,
        (L.foldl (integrateBlockStep a b r) t).blockChunks blk = some l ∧
          l ≠ [] ∧
          (L.foldl (integrateBlockStep a b r) t).blockReason blk = some r := by
  intro L
  induction L with
  | nil => intro t _ blk hblk; simp at hblk
  | cons b0 L' ih =>
    intro t hyp blk hblk
    rw [List.foldl_cons]
    have hdone0 : ∃ l,
        (integrateBlockStep a b r t b0).blockChunks b0 = some l ∧ l ≠ [] ∧
          (integrateBlockStep a b r t b0).blockReason b0 = some r := by
      rcases integrateBlockStep_self a b r t b0 with ⟨h1, h2⟩
      rcases hyp b0 (List.mem_cons_self _ _) with ⟨l, hl, hne⟩ | hnone
      · rw [hl] at h1
        exact ⟨l.map (fun c => if c = b then a else c), h1,
          by simpa using hne, h2⟩
      · rw [hnone] at h1
        exact ⟨[a], h1, by simp, h2⟩
    have hyp' : ∀ blk2 ∈ L',
        (∃ l, (integrateBlockStep a b r t b0).blockChunks blk2 = some l ∧
          l ≠ []) ∨ (integrateBlockStep a b r t b0).blockChunks blk2 = none := by
      intro blk2 hblk2
      by_cases hb : blk2 = b0
      · subst hb
        rcases hdone0 with ⟨l, hl, hne, -⟩
        exact Or.inl ⟨l, hl, hne⟩
      · rcases integrateBlockStep_ne a b r t b0 blk2 hb with ⟨h1, -⟩
        rw [h1]
        exact hyp blk2 (List.mem_cons_of_mem _ hblk2)
    rcases List.mem_cons.mp hblk with rfl | hblk'
    · exact foldl_preserves
        (fun t2 => ∃ l, t2.blockChunks blk = some l ∧ l ≠ [] ∧
          t2.blockReason blk = some r)
        (integrateBlockStep a b r) L' (integrateBlockStep a b r t blk)
        (fun t2 b1 _ hd => integrateBlockStep_done a b r t2 b1 blk hd) hdone0
    · exact ih (integrateBlockStep a b r t b0) hyp' blk hblk'

/-- C8: starting from block states respecting the invariant (a non-empty
chunk list, or — where the operation tolerates it — the null marker),
`remove` leaves every block it produced in a good state (non-empty list, or
null with the reason recorded), and a successful `integrate` leaves every
block of the absorbed chunk with a non-empty chunk list and the reason
recorded; blocks of the removed chunk are assumed to hold non-empty lists
because the source would fault on `null.indexOf` there. -/
theorem blocks_invariant (g : CGraph) (x a b : Nat) (r : String)
    (hx : ∀ blk ∈ g.blocksOf x, ∃ l, g.blockChunks blk = some l ∧ l ≠ [])
    (hb : ∀ blk ∈ g.blocksOf b,
      (∃ l, g.blockChunks blk = some l ∧ l ≠ []) ∨ g.blockChunks blk = none)
    (hg : canBeIntegrated g a b = true) :
    (∀ blk ∈ g.blocksOf x, GoodBlock (removeFn g x r) r blk) ∧
    (∀ blk ∈ g.blocksOf b, ∃ l,
      (integrate g a b r).1.blockChunks blk = some l ∧ l ≠ [] ∧
      (integrate g a b r).1.blockReason blk = some r) := by
  constructor
  · intro blk hblk
    have hge1 : (removeEdges (setModules g x []) x).blockChunks = g.blockChunks := by
      rw [removeEdges_blockChunks, setModules_blockChunks_eq]
    have hge2 : (removeEdges (setModules g x []) x).blockReason = g.blockReason := by
      rw [removeEdges_blockReason, setModules_blockReason_eq]
    have hge3 : (removeEdges (setModules g x []) x).blocksOf = g.blocksOf := by
      rw [removeEdges_blocksOf, setModules_blocksOf_eq]
    show GoodBlock (removeBlocks (removeEdges (setModules g x []) x) x r) r blk
    unfold removeBlocks
    rw [congrFun hge3 x]
    have hres := removeBlocks_good x r (g.blocksOf x)
      (removeEdges (setModules g x []) x) (removeEdges (setModules g x []) x)
      (fun blk2 => Or.inr ⟨rfl, rfl⟩) blk
    rcases hres with hgood | ⟨h1, h2⟩
    · exact hgood
    · rcases hx blk hblk with ⟨l, hl, hne⟩
      exact Or.inl ⟨l, by rw [h1, congrFun hge1 blk]; exact hl, hne⟩
  · intro blk hblk
    have hg6a : (intChildren (intParents (intModules g a b) a b) a b).blockChunks
        = g.blockChunks := by
      rw [intChildren_blockChunks, intParents_blockChunks, intModules_blockChunks]
    have hg6b : (intChildren (intParents (intModules g a b) a b) a b).blocksOf
        = g.blocksOf := by
      rw [intChildren_blocksOf, intParents_blocksOf, intModules_blocksOf]
    unfold integrate
    rw [if_neg (by simp [hg])]
    show ∃ l, (intCleanup (intOrigins (intBlocks _ a b r) a b r) a b).blockChunks
        blk = some l ∧ l ≠ [] ∧
      (intCleanup (intOrigins (intBlocks _ a b r) a b r) a b).blockReason blk =
        some r
    rw [congrFun (intCleanup_blockChunks _ a b) blk,
      congrFun (intOrigins_blockChunks _ a b r) blk,
      congrFun (intCleanup_blockReason _ a b) blk,
      congrFun (intOrigins_blockReason _ a b r) blk]
    unfold intBlocks
    rw [congrFun (setBlocksOf_blockChunks_eq _ _ _) blk,
      congrFun (setBlocksOf_blockReason_eq _ _ _) blk, congrFun hg6b b]
    exact intBlocksFold_done a b r (g.blocksOf b)
      (intChildren (intParents (intModules g a b) a b) a b)
      (fun blk2 hblk2 => by rw [congrFun hg6a blk2]; exact hb blk2 hblk2)
      blk hblk

theorem blocks_invariant_witness :
    GoodBlock (removeFn cgMerge 1 "r") "r" 3 ∧
      (∃ l, (integrate cgMerge 0 1 "r").1.blockChunks 3 = some l ∧ l ≠ [] ∧
        (integrate cgMerge 0 1 "r").1.blockReason 3 = some "r") := by
  have hx : ∀ blk ∈ cgMerge.blocksOf 1,
      ∃ l, cgMerge.blockChunks blk = some l ∧ l ≠ [] := by
    intro blk hblk
    have he : cgMerge.blocksOf 1 = [3] := rfl
    rw [he, List.mem_singleton] at hblk
    subst hblk
    exact ⟨[1], rfl, by decide⟩
  have hb : ∀ blk ∈ cgMerge.blocksOf 1,
      (∃ l, cgMerge.blockChunks blk = some l ∧ l ≠ []) ∨
        cgMerge.blockChunks blk = none := by
    intro blk hblk
    exact Or.inl (hx blk hblk)
  have h := blocks_invariant cgMerge 1 0 1 "r" hx hb (by decide)
  exact ⟨h.1 3 (by decide), h.2 3 (by decide)⟩

/-! Invariant preservation, operation by operation (C1). -/

/-- A paired `a.addChunk(b); b.addParent(a)` preserves `checkConstraints`
success everywhere. -/
theorem pairAdd_okAt (g : CGraph) (a b y : Nat) (h : okAt g y) :
    okAt ((addParent (addChunk g a b).1 b a).1) y := by
  rcases h with ⟨h1, h2, h3, h4⟩
  refine ⟨?_, ?_, ?_, ?_⟩
  · rw [congrFun (addParent_children _ _ _) y]
    exact addChunk_children_nodup g a b y h1
  · intro ch hch
    rw [congrFun (addParent_children _ _ _) y, addChunk_children_mem] at hch
    rw [addParent_parents_mem, congrFun (addChunk_parents _ _ _) ch]
    rcases hch with hch | ⟨rfl, rfl⟩
    · exact Or.inl (h2 ch hch)
    · exact Or.inr ⟨rfl, rfl⟩
  · apply addParent_parents_nodup
    rw [congrFun (addChunk_parents _ _ _) y]
    exact h3
  · intro p hp
    rw [addParent_parents_mem, congrFun (addChunk_parents _ _ _) y] at hp
    rw [congrFun (addParent_children _ _ _) p, addChunk_children_mem]
    rcases hp with hp | ⟨rfl, rfl⟩
    · exact Or.inl (h4 p hp)
    · exact Or.inr ⟨rfl, rfl⟩

/-- `removeChunk` preserves `checkConstraints` success on every chunk of a
well-formed graph containing `a` and `b`. -/
theorem removeChunk_inv (live : List Nat) (g : CGraph) (a b : Nat)
    (hinv : GraphInv live g) (ha : a ∈ live) (hb : b ∈ live) :
    GraphInv live (removeChunk g a b).1 := by
  rcases hinv a ha with ⟨hand, hachp, hanp, hapch⟩
  rcases hinv b hb with ⟨hbnd, hbchp, hbnp, hbpch⟩
  unfold removeChunk
  by_cases hmem : b ∈ g.children a
  · rw [if_pos hmem]
    have hab : a ∈ g.parents b := hachp b hmem
    rw [if_pos (by rw [congrFun (setChildren_parents_eq _ _ _) b]; exact hab)]
    show GraphInv live (setParents (setChildren g a ((g.children a).erase b)) b
      ((g.parents b).erase a))
    intro y hy
    rcases hinv y hy with ⟨h1, h2, h3, h4⟩
    have hch : ∀ q, (setParents (setChildren g a ((g.children a).erase b)) b
        ((g.parents b).erase a)).children q =
          if q = a then (g.children a).erase b else g.children q := by
      intro q
      rw [congrFun (setParents_children_eq _ _ _) q]
      by_cases hq : q = a
      · subst hq; rw [setChildren_self, if_pos rfl]
      · rw [setChildren_ne _ _ _ _ hq, if_neg hq]
    have hpar : ∀ q, (setParents (setChildren g a ((g.children a).erase b)) b
        ((g.parents b).erase a)).parents q =
          if q = b then (g.parents b).erase a else g.parents q := by
      intro q
      by_cases hq : q = b
      · subst hq
        rw [setParents_self, if_pos rfl]
      · rw [setParents_ne _ _ _ _ hq, if_neg hq,
          congrFun (setChildren_parents_eq _ _ _) q]
    show okAt _ y
    refine ⟨?_, ?_, ?_, ?_⟩
    · rw [hch y]
      by_cases hq : y = a
      · rw [if_pos hq]; exact hand.erase b
      · rw [if_neg hq]; exact h1
    · intro ch hchm
      rw [hch y] at hchm
      rw [hpar ch]
      by_cases hq : y = a
      · rw [if_pos hq] at hchm
        subst hq
        have hchb : ch ≠ b := fun he =>
          absurd ((List.Nodup.mem_erase_iff hand).mp (he ▸ hchm)).1 (by simp)
        rw [if_neg hchb]
        exact hachp ch (List.erase_subset _ _ hchm)
      · rw [if_neg hq] at hchm
        by_cases hcb : ch = b
        · subst hcb
          rw [if_pos rfl]
          exact (List.mem_erase_of_ne hq).mpr (h2 ch hchm)
        · rw [if_neg hcb]
          exact h2 ch hchm
    · rw [hpar y]
      by_cases hq : y = b
      · rw [if_pos hq]; exact hbnp.erase a
      · rw [if_neg hq]; exact h3
    · intro p hpm
      rw [hpar y] at hpm
      rw [hch p]
      by_cases hq : y = b
      · rw [if_pos hq] at hpm
        subst hq
        have hpa : p ≠ a := fun he =>
          absurd ((List.Nodup.mem_erase_iff hbnp).mp (he ▸ hpm)).1 (by simp)
        rw [if_neg hpa]
        exact hbpch p (List.erase_subset _ _ hpm)
      · rw [if_neg hq] at hpm
        by_cases hpa : p = a
        · subst hpa
          rw [if_pos rfl]
          exact (List.mem_erase_of_ne hq).mpr (h4 p hpm)
        · rw [if_neg hpa]
          exact h4 p hpm
  · rw [if_neg hmem]
    exact hinv

/-- `removeParent` preserves `checkConstraints` success on every chunk of a
well-formed graph containing `a` and `b`. -/
theorem removeParent_inv (live : List Nat) (g : CGraph) (a b : Nat)
    (hinv : GraphInv live g) (ha : a ∈ live) (hb : b ∈ live) :
    GraphInv live (removeParent g a b).1 := by
  rcases hinv a ha with ⟨hand, hachp, hanp, hapch⟩
  rcases hinv b hb with ⟨hbnd, hbchp, hbnp, hbpch⟩
  unfold removeParent
  by_cases hmem : b ∈ g.parents a
  · rw [if_pos hmem]
    have hab : a ∈ g.children b := hapch b hmem
    rw [if_pos (by rw [congrFun (setParents_children_eq _ _ _) b]; exact hab)]
    show GraphInv live (setChildren (setParents g a ((g.parents a).erase b)) b
      ((g.children b).erase a))
    intro y hy
    rcases hinv y hy with ⟨h1, h2, h3, h4⟩
    have hpar : ∀ q, (setChildren (setParents g a ((g.parents a).erase b)) b
        ((g.children b).erase a)).parents q =
          if q = a then (g.parents a).erase b else g.parents q := by
      intro q
      rw [congrFun (setChildren_parents_eq _ _ _) q]
      by_cases hq : q = a
      · subst hq; rw [setParents_self, if_pos rfl]
      · rw [setParents_ne _ _ _ _ hq, if_neg hq]
    have hch : ∀ q, (setChildren (setParents g a ((g.parents a).erase b)) b
        ((g.children b).erase a)).children q =
          if q = b then (g.children b).erase a else g.children q := by
      intro q
      by_cases hq : q = b
      · subst hq
        rw [setChildren_self, if_pos rfl]
      · rw [setChildren_ne _ _ _ _ hq, if_neg hq,
          congrFun (setParents_children_eq _ _ _) q]
    show okAt _ y
    refine ⟨?_, ?_, ?_, ?_⟩
    · rw [hch y]
      by_cases hq : y = b
      · rw [if_pos hq]; exact hbnd.erase a
      · rw [if_neg hq]; exact h1
    · intro ch hchm
      rw [hch y] at hchm
      rw [hpar ch]
      by_cases hq : y = b
      · rw [if_pos hq] at hchm
        subst hq
        have hcha : ch ≠ a := fun he =>
          absurd ((List.Nodup.mem_erase_iff hbnd).mp (he ▸ hchm)).1 (by simp)
        rw [if_neg hcha]
        exact hbchp ch (List.erase_subset _ _ hchm)
      · rw [if_neg hq] at hchm
        by_cases hca : ch = a
        · subst hca
          rw [if_pos rfl]
          exact (List.mem_erase_of_ne hq).mpr (h2 ch hchm)
        · rw [if_neg hca]
          exact h2 ch hchm
    · rw [hpar y]
      by_cases hq : y = a
      · rw [if_pos hq]; exact hanp.erase b
      · rw [if_neg hq]; exact h3
    · intro p hpm
      rw [hpar y] at hpm
      rw [hch p]
      by_cases hq : y = a
      · rw [if_pos hq] at hpm
        subst hq
        have hpb : p ≠ b := fun he =>
          absurd ((List.Nodup.mem_erase_iff hanp).mp (he ▸ hpm)).1 (by simp)
        rw [if_neg hpb]
        exact hapch p (List.erase_subset _ _ hpm)
      · rw [if_neg hq] at hpm
        by_cases hpb : p = b
        · subst hpb
          rw [if_pos rfl]
          exact (List.mem_erase_of_ne hq).mpr (h4 p hpm)
        · rw [if_neg hpb]
          exact h4 p hpm
  · rw [if_neg hmem]
    exact hinv

/-- `remove` preserves `checkConstraints` success on all surviving chunks of
a well-formed graph. -/
theorem remove_inv (live : List Nat) (g : CGraph) (x : Nat) (r : String)
    (hLnd : live.Nodup) (hinv : GraphInv live g) (hx : x ∈ live) :
    GraphInv (live.erase x) (removeFn g x r) := by
  rcases hinv x hx with ⟨hCnd, hCP, hPnd, hPC⟩
  have hm := removeFn_mid g x hCnd hPnd
  have hPeq : (setModules g x []).parents = g.parents := rfl
  have hCeq : (setModules g x []).children = g.children := rfl
  have hT : (removeLoop1Fn (setModules g x []) x).children x =
      if x ∈ g.parents x then (g.children x).erase x else g.children x := by
    rw [hm.children_x, hCeq]
  have hTnd : ((removeLoop1Fn (setModules g x []) x).children x).Nodup := by
    rw [hT]
    by_cases hxp : x ∈ g.parents x
    · rw [if_pos hxp]; exact hCnd.erase x
    · rw [if_neg hxp]; exact hCnd
  have hTmem : ∀ z, z ∈ g.children x → z ≠ x →
      z ∈ (removeLoop1Fn (setModules g x []) x).children x := by
    intro z hz hzx
    rw [hT]
    by_cases hxp : x ∈ g.parents x
    · rw [if_pos hxp]; exact (List.mem_erase_of_ne hzx).mpr hz
    · rw [if_neg hxp]; exact hz
  have charp : ∀ c, c ≠ x → ∀ z,
      (z ∈ (removeLoop1Fn (setModules g x []) x).parents c ↔
        z ∈ g.parents c ∨ (z ∈ g.parents x ∧ c ∈ g.children x)) := by
    intro c hc z
    have h := hm.parents_char c hc z
    rw [hPeq, hCeq] at h
    exact h
  have charc : ∀ q, q ∈ g.parents x → q ≠ x → ∀ z, z ≠ x →
      (z ∈ (removeLoop1Fn (setModules g x []) x).children q ↔
        z ∈ g.children q ∨ z ∈ g.children x) := by
    intro q hq hqx z hzx
    have h := hm.children_char q hq hqx z hzx
    rw [hCeq] at h
    exact h
  have charcu : ∀ q, q ≠ x → q ∉ g.parents x →
      (removeLoop1Fn (setModules g x []) x).children q = g.children q := by
    intro q hqx hqp
    have h := hm.children_untouched q hqx hqp
    rw [hCeq] at h
    exact h
  have charcxm : ∀ q, q ∈ g.parents x → q ≠ x →
      x ∈ (removeLoop1Fn (setModules g x []) x).children q →
      x ∈ (g.children q).erase x ∨ x ∈ g.children x := by
    intro q hq hqx hxm
    have h := hm.children_x_mem q hq hqx hxm
    rw [hCeq] at h
    exact h
  have hndc : ∀ q, (g.children q).Nodup →
      ((removeLoop1Fn (setModules g x []) x).children q).Nodup :=
    fun q hq => hm.nodup_children q hq
  have hndp : ∀ q, (g.parents q).Nodup →
      ((removeLoop1Fn (setModules g x []) x).parents q).Nodup :=
    fun q hq => hm.nodup_parents q hq
  have hg1px : (removeLoop1Fn (setModules g x []) x).parents x = g.parents x := by
    have h := hm.parents_x
    rw [hPeq] at h
    exact h
  have fch : ∀ q, (removeFn g x r).children q =
      (removeLoop1Fn (setModules g x []) x).children q :=
    fun q => congrFun (removeFn_children_eq g x r) q
  have fpar : ∀ c, (removeFn g x r).parents c =
      if c ∈ (removeLoop1Fn (setModules g x []) x).children x then
        ((removeLoop1Fn (setModules g x []) x).parents c).erase x
      else (removeLoop1Fn (setModules g x []) x).parents c :=
    fun c => removeFn_parents_eq g x r hTnd c
  intro y hy
  have hyx : y ≠ x := ((List.Nodup.mem_erase_iff hLnd).mp hy).1
  have hyL : y ∈ live := ((List.Nodup.mem_erase_iff hLnd).mp hy).2
  rcases hinv y hyL with ⟨h1, h2, h3, h4⟩
  have hfin : ∀ ch, y ∈ (removeLoop1Fn (setModules g x []) x).parents ch →
      y ∈ (removeFn g x r).parents ch := by
    intro ch hy1
    rw [fpar ch]
    by_cases hcT : ch ∈ (removeLoop1Fn (setModules g x []) x).children x
    · rw [if_pos hcT]; exact (List.mem_erase_of_ne hyx).mpr hy1
    · rw [if_neg hcT]; exact hy1
  refine ⟨?_, ?_, ?_, ?_⟩
  · rw [fch y]; exact hndc y h1
  · intro ch hch
    rw [fch y] at hch
    by_cases hyp : y ∈ g.parents x
    · by_cases hchx : ch = x
      · subst hchx
        apply hfin
        rw [hg1px]
        exact hyp
      · rcases (charc y hyp hyx ch hchx).mp hch with hl | hr
        · exact hfin ch ((charp ch hchx y).mpr (Or.inl (h2 ch hl)))
        · exact hfin ch ((charp ch hchx y).mpr (Or.inr ⟨hyp, hr⟩))
    · rw [charcu y hyx hyp] at hch
      have hchx : ch ≠ x := fun he => hyp (h2 x (he ▸ hch))
      exact hfin ch ((charp ch hchx y).mpr (Or.inl (h2 ch hch)))
  · rw [fpar y]
    by_cases hyT : y ∈ (removeLoop1Fn (setModules g x []) x).children x
    · rw [if_pos hyT]; exact (hndp y h3).erase x
    · rw [if_neg hyT]; exact hndp y h3
  · intro p hp
    rw [fpar y] at hp
    have hkey : p ∈ (removeLoop1Fn (setModules g x []) x).parents y ∧ p ≠ x := by
      by_cases hyT : y ∈ (removeLoop1Fn (setModules g x []) x).children x
      · rw [if_pos hyT] at hp
        have h := (List.Nodup.mem_erase_iff (hndp y h3)).mp hp
        exact ⟨h.2, h.1⟩
      · rw [if_neg hyT] at hp
        refine ⟨hp, ?_⟩
        intro he
        subst he
        rcases (charp y hyx p).mp hp with hl | ⟨-, hyC⟩
        · exact hyT (hTmem y (h4 p hl) hyx)
        · exact hyT (hTmem y hyC hyx)
    rcases hkey with ⟨hp1, hpx⟩
    rw [fch p]
    rcases (charp y hyx p).mp hp1 with hl | ⟨hpP, hyC⟩
    · have hyc := h4 p hl
      by_cases hpp : p ∈ g.parents x
      · exact (charc p hpp hpx y hyx).mpr (Or.inl hyc)
      · rw [charcu p hpx hpp]; exact hyc
    · exact (charc p hpP hpx y hyx).mpr (Or.inr hyC)

/-! Lemmas about `split`'s three loops. -/

theorem splitBlockStep_children (n : Nat) (h : CGraph) (b : Nat) :
    (splitBlockStep n h b).children = h.children := by
  unfold splitBlockStep
  dsimp only
  split <;> rfl

theorem splitBlockStep_parents (n : Nat) (h : CGraph) (b : Nat) :
    (splitBlockStep n h b).parents = h.parents := by
  unfold splitBlockStep
  dsimp only
  split <;> rfl

theorem splitChildStep_children_mem (n : Nat) (h : CGraph) (c q z : Nat) :
    z ∈ (splitChildStep n h c).children q ↔
      z ∈ h.children q ∨ (q = n ∧ z = c) := by
  unfold splitChildStep
  rw [congrFun (addParent_children _ _ _) q, addChunk_children_mem]

theorem splitChildStep_parents_mem (n : Nat) (h : CGraph) (c q z : Nat) :
    z ∈ (splitChildStep n h c).parents q ↔
      z ∈ h.parents q ∨ (q = c ∧ z = n) := by
  unfold splitChildStep
  rw [addParent_parents_mem, congrFun (addChunk_parents _ _ _) q]

theorem splitChildStep_children_nodup (n : Nat) (h : CGraph) (c q : Nat)
    (hq : (h.children q).Nodup) : ((splitChildStep n h c).children q).Nodup := by
  unfold splitChildStep
  rw [congrFun (addParent_children _ _ _) q]
  exact addChunk_children_nodup _ _ _ _ hq

theorem splitChildStep_parents_nodup (n : Nat) (h : CGraph) (c q : Nat)
    (hq : (h.parents q).Nodup) : ((splitChildStep n h c).parents q).Nodup := by
  unfold splitChildStep
  apply addParent_parents_nodup
  rw [congrFun (addChunk_parents _ _ _) q]
  exact hq

theorem splitParentStep_children_mem (n : Nat) (h : CGraph) (p q z : Nat) :
    z ∈ (splitParentStep n h p).children q ↔
      z ∈ h.children q ∨ (q = p ∧ z = n) := by
  unfold splitParentStep
  rw [congrFun (addParent_children _ _ _) q, addChunk_children_mem]

theorem splitParentStep_parents_mem (n : Nat) (h : CGraph) (p q z : Nat) :
    z ∈ (splitParentStep n h p).parents q ↔
      z ∈ h.parents q ∨ (q = n ∧ z = p) := by
  unfold splitParentStep
  rw [addParent_parents_mem, congrFun (addChunk_parents _ _ _) q]

theorem splitParentStep_children_nodup (n : Nat) (h : CGraph) (p q : Nat)
    (hq : (h.children q).Nodup) : ((splitParentStep n h p).children q).Nodup := by
  unfold splitParentStep
  rw [congrFun (addParent_children _ _ _) q]
  exact addChunk_children_nodup _ _ _ _ hq

theorem splitParentStep_parents_nodup (n : Nat) (h : CGraph) (p q : Nat)
    (hq : (h.parents q).Nodup) : ((splitParentStep n h p).parents q).Nodup := by
  unfold splitParentStep
  apply addParent_parents_nodup
  rw [congrFun (addChunk_parents _ _ _) q]
  exact hq

theorem scsFold_children_mem (n : Nat) :
    ∀ (S : List Nat) (k : CGraph) (q z : Nat),
      (z ∈ ((S.foldl (splitChildStep n) k).children q) ↔
        z ∈ k.children q ∨ (q = n ∧ z ∈ S)) := by
  intro S
  induction S with
  | nil => intro k q z; simp
  | cons c0 S' ih =>
    intro k q z
    rw [List.foldl_cons, ih, splitChildStep_children_mem]
    constructor
    · rintro ((hz | ⟨rfl, rfl⟩) | ⟨rfl, hq⟩)
      · exact Or.inl hz
      · exact Or.inr ⟨rfl, List.mem_cons_self _ _⟩
      · exact Or.inr ⟨rfl, List.mem_cons_of_mem _ hq⟩
    · rintro (hz | ⟨rfl, hq⟩)
      · exact Or.inl (Or.inl hz)
      · rcases List.mem_cons.mp hq with h0 | h1
        · exact Or.inl (Or.inr ⟨rfl, h0⟩)
        · exact Or.inr ⟨rfl, h1⟩

theorem scsFold_parents_mem (n : Nat) :
    ∀ (S : List Nat) (k : CGraph) (q z : Nat),
      (z ∈ ((S.foldl (splitChildStep n) k).parents q) ↔
        z ∈ k.parents q ∨ (z = n ∧ q ∈ S)) := by
  intro S
  induction S with
  | nil => intro k q z; simp
  | cons c0 S' ih =>
    intro k q z
    rw [List.foldl_cons, ih, splitChildStep_parents_mem]
    constructor
    · rintro ((hz | ⟨rfl, rfl⟩) | ⟨rfl, hq⟩)
      · exact Or.inl hz
      · exact Or.inr ⟨rfl, List.mem_cons_self _ _⟩
      · exact Or.inr ⟨rfl, List.mem_cons_of_mem _ hq⟩
    · rintro (hz | ⟨rfl, hq⟩)
      · exact Or.inl (Or.inl hz)
      · rcases List.mem_cons.mp hq with h0 | h1
        · exact Or.inl (Or.inr ⟨h0, rfl⟩)
        · exact Or.inr ⟨rfl, h1⟩

theorem spsFold_children_mem (n : Nat) :
    ∀ (S : List Nat) (k : CGraph) (q z : Nat),
      (z ∈ ((S.foldl (splitParentStep n) k).children q) ↔
        z ∈ k.children q ∨ (z = n ∧ q ∈ S)) := by
  intro S
  induction S with
  | nil => intro k q z; simp
  | cons c0 S' ih =>
    intro k q z
    rw [List.foldl_cons, ih, splitParentStep_children_mem]
    constructor
    · rintro ((hz | ⟨rfl, rfl⟩) | ⟨rfl, hq⟩)
      · exact Or.inl hz
      · exact Or.inr ⟨rfl, List.mem_cons_self _ _⟩
      · exact Or.inr ⟨rfl, List.mem_cons_of_mem _ hq⟩
    · rintro (hz | ⟨rfl, hq⟩)
      · exact Or.inl (Or.inl hz)
      · rcases List.mem_cons.mp hq with h0 | h1
        · exact Or.inl (Or.inr ⟨h0, rfl⟩)
        · exact Or.inr ⟨rfl, h1⟩

theorem spsFold_parents_mem (n : Nat) :
    ∀ (S : List Nat) (k : CGraph) (q z : Nat),
      (z ∈ ((S.foldl (splitParentStep n) k).parents q) ↔
        z ∈ k.parents q ∨ (q = n ∧ z ∈ S)) := by
  intro S
  induction S with
  | nil => intro k q z; simp
  | cons c0 S' ih =>
    intro k q z
    rw [List.foldl_cons, ih, splitParentStep_parents_mem]
    constructor
    · rintro ((hz | ⟨rfl, rfl⟩) | ⟨rfl, hq⟩)
      · exact Or.inl hz
      · exact Or.inr ⟨rfl, List.mem_cons_self _ _⟩
      · exact Or.inr ⟨rfl, List.mem_cons_of_mem _ hq⟩
    · rintro (hz | ⟨rfl, hq⟩)
      · exact Or.inl (Or.inl hz)
      · rcases List.mem_cons.mp hq with h0 | h1
        · exact Or.inl (Or.inr ⟨rfl, h0⟩)
        · exact Or.inr ⟨rfl, h1⟩

theorem scsFold_children_nodup (n : Nat) :
    ∀ (S : List Nat) (k : CGraph) (q : Nat), (k.children q).Nodup →
      ((S.foldl (splitChildStep n) k).children q).Nodup := by
  intro S
  induction S with
  | nil => intro k q hq; exact hq
  | cons c0 S' ih =>
    intro k q hq
    rw [List.foldl_cons]
    exact ih _ _ (splitChildStep_children_nodup n k c0 q hq)

theorem scsFold_parents_nodup (n : Nat) :
    ∀ (S : List Nat) (k : CGraph) (q : Nat), (k.parents q).Nodup →
      ((S.foldl (splitChildStep n) k).parents q).Nodup := by
  intro S
  induction S with
  | nil => intro k q hq; exact hq
  | cons c0 S' ih =>
    intro k q hq
    rw [List.foldl_cons]
    exact ih _ _ (splitChildStep_parents_nodup n k c0 q hq)

theorem spsFold_children_nodup (n : Nat) :
    ∀ (S : List Nat) (k : CGraph) (q : Nat), (k.children q).Nodup →
      ((S.foldl (splitParentStep n) k).children q).Nodup := by
  intro S
  induction S with
  | nil => intro k q hq; exact hq
  | cons c0 S' ih =>
    intro k q hq
    rw [List.foldl_cons]
    exact ih _ _ (splitParentStep_children_nodup n k c0 q hq)

theorem spsFold_parents_nodup (n : Nat) :
    ∀ (S : List Nat) (k : CGraph) (q : Nat), (k.parents q).Nodup →
      ((S.foldl (splitParentStep n) k).parents q).Nodup := by
  intro S
  induction S with
  | nil => intro k q hq; exact hq
  | cons c0 S' ih =>
    intro k q hq
    rw [List.foldl_cons]
    exact ih _ _ (splitParentStep_parents_nodup n k c0 q hq)

theorem splitBlocksFold_children (n : Nat) (L : List Nat) (g : CGraph) :
    (L.foldl (splitBlockStep n) g).children = g.children :=
  foldl_preserves (fun t => t.children = g.children) (splitBlockStep n) L g
    (fun t b _ ht => by
      show (splitBlockStep n t b).children = g.children
      rw [splitBlockStep_children]; exact ht) rfl

theorem splitBlocksFold_parents (n : Nat) (L : List Nat) (g : CGraph) :
    (L.foldl (splitBlockStep n) g).parents = g.parents :=
  foldl_preserves (fun t => t.parents = g.parents) (splitBlockStep n) L g
    (fun t b _ ht => by
      show (splitBlockStep n t b).parents = g.parents
      rw [splitBlockStep_parents]; exact ht) rfl

/-- `split` onto a freshly constructed chunk preserves `checkConstraints`
success on all chunks, the new one included. -/
theorem split_inv (live : List Nat) (g : CGraph) (a n : Nat)
    (hinv : GraphInv live g) (ha : a ∈ live) (hn1 : n ∉ live)
    (hn2 : g.children n = []) (hn3 : g.parents n = [])
    (hn4 : ∀ y ∈ live, n ∉ g.children y ∧ n ∉ g.parents y) :
    GraphInv (live ++ [n]) (split g a n) := by
  unfold split
  dsimp only
  set g1 := (g.blocksOf a).foldl (splitBlockStep n) g with hg1
  set g2 := (g1.children a).foldl (splitChildStep n) g1 with hg2
  set g3 := (g2.parents a).foldl (splitParentStep n) g2 with hg3
  have h1c : g1.children = g.children := splitBlocksFold_children n (g.blocksOf a) g
  have h1p : g1.parents = g.parents := splitBlocksFold_parents n (g.blocksOf a) g
  have F2c : ∀ q z, z ∈ g2.children q ↔
      z ∈ g.children q ∨ (q = n ∧ z ∈ g.children a) := by
    intro q z
    rw [hg2, scsFold_children_mem n (g1.children a) g1 q z, congrFun h1c q,
      congrFun h1c a]
  have F2p : ∀ q z, z ∈ g2.parents q ↔
      z ∈ g.parents q ∨ (z = n ∧ q ∈ g.children a) := by
    intro q z
    rw [hg2, scsFold_parents_mem n (g1.children a) g1 q z, congrFun h1p q,
      congrFun h1c a]
  have F3c : ∀ q z, z ∈ g3.children q ↔
      z ∈ g2.children q ∨ (z = n ∧ q ∈ g2.parents a) := by
    intro q z
    rw [hg3, spsFold_children_mem n (g2.parents a) g2 q z]
  have F3p : ∀ q z, z ∈ g3.parents q ↔
      z ∈ g2.parents q ∨ (q = n ∧ z ∈ g2.parents a) := by
    intro q z
    rw [hg3, spsFold_parents_mem n (g2.parents a) g2 q z]
  have F3cn : ∀ q, (g.children q).Nodup → (g3.children q).Nodup := by
    intro q hq
    rw [hg3]
    apply spsFold_children_nodup
    rw [hg2]
    apply scsFold_children_nodup
    rw [congrFun h1c q]
    exact hq
  have F3pn : ∀ q, (g.parents q).Nodup → (g3.parents q).Nodup := by
    intro q hq
    rw [hg3]
    apply spsFold_parents_nodup
    rw [hg2]
    apply scsFold_parents_nodup
    rw [congrFun h1p q]
    exact hq
  intro y hy
  rcases List.mem_append.mp hy with hyL | hyn
  · have hyne : y ≠ n := fun he => hn1 (he ▸ hyL)
    rcases hinv y hyL with ⟨k1, k2, k3, k4⟩
    refine ⟨F3cn y k1, ?_, F3pn y k3, ?_⟩
    · intro z hz
      rcases (F3c y z).mp hz with hz2 | ⟨rfl, hyp⟩
      · rcases (F2c y z).mp hz2 with hzg | ⟨hyn2, -⟩
        · exact (F3p z y).mpr (Or.inl ((F2p z y).mpr (Or.inl (k2 z hzg))))
        · exact absurd hyn2 hyne
      · exact (F3p z y).mpr (Or.inr ⟨rfl, hyp⟩)
    · intro p hp
      rcases (F3p y p).mp hp with hp2 | ⟨hyn2, -⟩
      · rcases (F2p y p).mp hp2 with hpg | ⟨hpn, hyc⟩
        · exact (F3c p y).mpr (Or.inl ((F2c p y).mpr (Or.inl (k4 p hpg))))
        · exact (F3c p y).mpr (Or.inl ((F2c p y).mpr (Or.inr ⟨hpn, hyc⟩)))
      · exact absurd hyn2 hyne
  · rw [List.mem_singleton] at hyn
    subst hyn
    refine ⟨F3cn y (by rw [hn2]; exact List.nodup_nil), ?_,
      F3pn y (by rw [hn3]; exact List.nodup_nil), ?_⟩
    · intro z hz
      rcases (F3c y z).mp hz with hz2 | ⟨rfl, hyp⟩
      · rcases (F2c y z).mp hz2 with hzg | ⟨-, hzc⟩
        · rw [hn2] at hzg
          exact absurd hzg (List.not_mem_nil z)
        · exact (F3p z y).mpr (Or.inl ((F2p z y).mpr (Or.inr ⟨rfl, hzc⟩)))
      · exact (F3p z z).mpr (Or.inr ⟨rfl, hyp⟩)
    · intro p hp
      rcases (F3p y p).mp hp with hp2 | ⟨-, hpp⟩
      · rcases (F2p y p).mp hp2 with hpg | ⟨hpn, hnc⟩
        · rw [hn3] at hpg
          exact absurd hpg (List.not_mem_nil p)
        · exact absurd hnc (hn4 a ha).1
      · exact (F3c p y).mpr (Or.inr ⟨rfl, hpp⟩)

/-! Edge characterizations of `replaceChunk` and `replaceParentChunk`. -/

theorem addParent_eq_of_not_mem (g : CGraph) (a p : Nat)
    (h : p ∉ g.parents a) :
    addParent g a p = (setParents g a (g.parents a ++ [p]), true) := by
  unfold addParent
  rw [if_neg h]

theorem addChunk_eq_of_not_mem (g : CGraph) (a c : Nat)
    (h : c ∉ g.children a) :
    addChunk g a c = (setChildren g a (g.children a ++ [c]), true) := by
  unfold addChunk
  rw [if_neg h]

theorem replaceChunk_children_self_mem (h : CGraph) (p b a z : Nat) :
    z ∈ (replaceChunk h p b a).children p ↔
      z ∈ (h.children p).erase b ∨ (z = a ∧ p ≠ a ∧ p ∉ h.parents a) := by
  unfold replaceChunk
  dsimp only
  by_cases hpa : p = a
  · rw [if_neg (not_not_intro hpa), setChildren_self]
    simp [hpa]
  · rw [if_pos hpa]
    have hpar : (setChildren h p ((h.children p).erase b)).parents = h.parents :=
      setChildren_parents_eq h p _
    by_cases hmem : p ∈ h.parents a
    · rw [addParent_noop _ a p (by rw [hpar]; exact hmem)]
      dsimp only
      rw [if_neg (by simp)]
      rw [setChildren_self]
      simp [hmem]
    · rw [addParent_eq_of_not_mem _ a p (by rw [hpar]; exact hmem)]
      dsimp only
      rw [if_pos rfl]
      rw [addChunk_children_mem,
        congrFun (setParents_children_eq _ _ _) p, setChildren_self]
      constructor
      · rintro (hz | ⟨-, rfl⟩)
        · exact Or.inl hz
        · exact Or.inr ⟨rfl, hpa, hmem⟩
      · rintro (hz | ⟨rfl, -, -⟩)
        · exact Or.inl hz
        · exact Or.inr ⟨rfl, rfl⟩

theorem replaceChunk_children_ne (h : CGraph) (p b a q : Nat) (hq : q ≠ p) :
    (replaceChunk h p b a).children q = h.children q := by
  unfold replaceChunk
  dsimp only
  by_cases hpa : p = a
  · rw [if_neg (not_not_intro hpa), setChildren_ne _ _ _ _ hq]
  · rw [if_pos hpa]
    split
    · rw [addChunk_children_ne _ _ _ _ hq,
        congrFun (addParent_children _ _ _) q, setChildren_ne _ _ _ _ hq]
    · rw [congrFun (addParent_children _ _ _) q, setChildren_ne _ _ _ _ hq]

theorem replaceChunk_parents_new_mem (h : CGraph) (p b a z : Nat) :
    z ∈ (replaceChunk h p b a).parents a ↔
      z ∈ h.parents a ∨ (z = p ∧ p ≠ a) := by
  unfold replaceChunk
  dsimp only
  by_cases hpa : p = a
  · rw [if_neg (not_not_intro hpa), congrFun (setChildren_parents_eq _ _ _) a]
    simp [hpa]
  · rw [if_pos hpa]
    have hpar : (setChildren h p ((h.children p).erase b)).parents = h.parents :=
      setChildren_parents_eq h p _
    by_cases hmem : p ∈ h.parents a
    · rw [addParent_noop _ a p (by rw [hpar]; exact hmem)]
      dsimp only
      rw [if_neg (by simp)]
      rw [congrFun hpar a]
      constructor
      · exact Or.inl
      · rintro (hz | ⟨rfl, -⟩)
        · exact hz
        · exact hmem
    · rw [addParent_eq_of_not_mem _ a p (by rw [hpar]; exact hmem)]
      dsimp only
      rw [if_pos rfl]
      rw [congrFun (addChunk_parents _ _ _) a, setParents_self, congrFun hpar a]
      constructor
      · intro hz
        rcases List.mem_append.mp hz with hz | hz
        · exact Or.inl hz
        · exact Or.inr ⟨List.mem_singleton.mp hz, hpa⟩
      · rintro (hz | ⟨rfl, -⟩)
        · exact List.mem_append_left _ hz
        · exact List.mem_append_right _ (List.mem_singleton.mpr rfl)

theorem replaceChunk_parents_ne (h : CGraph) (p b a c : Nat) (hc : c ≠ a) :
    (replaceChunk h p b a).parents c = h.parents c := by
  unfold replaceChunk
  dsimp only
  by_cases hpa : p = a
  · rw [if_neg (not_not_intro hpa), congrFun (setChildren_parents_eq _ _ _) c]
  · rw [if_pos hpa]
    split
    · rw [congrFun (addChunk_parents _ _ _) c, addParent_parents_ne _ _ _ _ hc,
        congrFun (setChildren_parents_eq _ _ _) c]
    · rw [addParent_parents_ne _ _ _ _ hc,
        congrFun (setChildren_parents_eq _ _ _) c]

theorem replaceChunk_children_nodup (h : CGraph) (p b a q : Nat)
    (hq : (h.children q).Nodup) : ((replaceChunk h p b a).children q).Nodup := by
  unfold replaceChunk
  dsimp only
  have h1 : ((setChildren h p ((h.children p).erase b)).children q).Nodup := by
    by_cases hqp : q = p
    · subst hqp; rw [setChildren_self]; exact hq.erase b
    · rw [setChildren_ne _ _ _ _ hqp]; exact hq
  by_cases hpa : p = a
  · rw [if_neg (not_not_intro hpa)]; exact h1
  · rw [if_pos hpa]
    split
    · apply addChunk_children_nodup
      rw [congrFun (addParent_children _ _ _) q]
      exact h1
    · rw [congrFun (addParent_children _ _ _) q]
      exact h1

theorem replaceChunk_parents_nodup (h : CGraph) (p b a q : Nat)
    (hq : (h.parents q).Nodup) : ((replaceChunk h p b a).parents q).Nodup := by
  unfold replaceChunk
  dsimp only
  have h1 : ((setChildren h p ((h.children p).erase b)).parents q).Nodup := by
    rw [congrFun (setChildren_parents_eq _ _ _) q]; exact hq
  by_cases hpa : p = a
  · rw [if_neg (not_not_intro hpa)]; exact h1
  · rw [if_pos hpa]
    split
    · rw [congrFun (addChunk_parents _ _ _) q]
      exact addParent_parents_nodup _ _ _ _ h1
    · exact addParent_parents_nodup _ _ _ _ h1

theorem replaceParentChunk_parents_self_mem (h : CGraph) (c b a z : Nat) :
    z ∈ (replaceParentChunk h c b a).parents c ↔
      z ∈ (h.parents c).erase b ∨ (z = a ∧ c ≠ a ∧ c ∉ h.children a) := by
  unfold replaceParentChunk
  dsimp only
  by_cases hca : c = a
  · rw [if_neg (not_not_intro hca), setParents_self]
    simp [hca]
  · rw [if_pos hca]
    have hch : (setParents h c ((h.parents c).erase b)).children = h.children :=
      setParents_children_eq h c _
    by_cases hmem : c ∈ h.children a
    · rw [addChunk_noop _ a c (by rw [hch]; exact hmem)]
      dsimp only
      rw [if_neg (by simp)]
      rw [setParents_self]
      simp [hmem]
    · rw [addChunk_eq_of_not_mem _ a c (by rw [hch]; exact hmem)]
      dsimp only
      rw [if_pos rfl]
      rw [addParent_parents_mem,
        congrFun (setChildren_parents_eq _ _ _) c, setParents_self]
      constructor
      · rintro (hz | ⟨-, rfl⟩)
        · exact Or.inl hz
        · exact Or.inr ⟨rfl, hca, hmem⟩
      · rintro (hz | ⟨rfl, -, -⟩)
        · exact Or.inl hz
        · exact Or.inr ⟨rfl, rfl⟩

theorem replaceParentChunk_parents_ne (h : CGraph) (c b a q : Nat)
    (hq : q ≠ c) :
    (replaceParentChunk h c b a).parents q = h.parents q := by
  unfold replaceParentChunk
  dsimp only
  by_cases hca : c = a
  · rw [if_neg (not_not_intro hca), setParents_ne _ _ _ _ hq]
  · rw [if_pos hca]
    split
    · rw [addParent_parents_ne _ _ _ _ hq,
        congrFun (addChunk_parents _ _ _) q, setParents_ne _ _ _ _ hq]
    · rw [congrFun (addChunk_parents _ _ _) q, setParents_ne _ _ _ _ hq]

theorem replaceParentChunk_children_new_mem (h : CGraph) (c b a z : Nat) :
    z ∈ (replaceParentChunk h c b a).children a ↔
      z ∈ h.children a ∨ (z = c ∧ c ≠ a) := by
  unfold replaceParentChunk
  dsimp only
  by_cases hca : c = a
  · rw [if_neg (not_not_intro hca), congrFun (setParents_children_eq _ _ _) a]
    simp [hca]
  · rw [if_pos hca]
    have hch : (setParents h c ((h.parents c).erase b)).children = h.children :=
      setParents_children_eq h c _
    by_cases hmem : c ∈ h.children a
    · rw [addChunk_noop _ a c (by rw [hch]; exact hmem)]
      dsimp only
      rw [if_neg (by simp)]
      rw [congrFun hch a]
      constructor
      · exact Or.inl
      · rintro (hz | ⟨rfl, -⟩)
        · exact hz
        · exact hmem
    · rw [addChunk_eq_of_not_mem _ a c (by rw [hch]; exact hmem)]
      dsimp only
      rw [if_pos rfl]
      rw [congrFun (addParent_children _ _ _) a, setChildren_self, congrFun hch a]
      constructor
      · intro hz
        rcases List.mem_append.mp hz with hz | hz
        · exact Or.inl hz
        · exact Or.inr ⟨List.mem_singleton.mp hz, hca⟩
      · rintro (hz | ⟨rfl, -⟩)
        · exact List.mem_append_left _ hz
        · exact List.mem_append_right _ (List.mem_singleton.mpr rfl)

theorem replaceParentChunk_children_ne (h : CGraph) (c b a q : Nat)
    (hq : q ≠ a) :
    (replaceParentChunk h c b a).children q = h.children q := by
  unfold replaceParentChunk
  dsimp only
  by_cases hca : c = a
  · rw [if_neg (not_not_intro hca), congrFun (setParents_children_eq _ _ _) q]
  · rw [if_pos hca]
    split
    · rw [congrFun (addParent_children _ _ _) q, addChunk_children_ne _ _ _ _ hq,
        congrFun (setParents_children_eq _ _ _) q]
    · rw [addChunk_children_ne _ _ _ _ hq,
        congrFun (setParents_children_eq _ _ _) q]

theorem replaceParentChunk_parents_nodup (h : CGraph) (c b a q : Nat)
    (hq : (h.parents q).Nodup) :
    ((replaceParentChunk h c b a).parents q).Nodup := by
  unfold replaceParentChunk
  dsimp only
  have h1 : ((setParents h c ((h.parents c).erase b)).parents q).Nodup := by
    by_cases hqc : q = c
    · subst hqc; rw [setParents_self]; exact hq.erase b
    · rw [setParents_ne _ _ _ _ hqc]; exact hq
  by_cases hca : c = a
  · rw [if_neg (not_not_intro hca)]; exact h1
  · rw [if_pos hca]
    split
    · apply addParent_parents_nodup
      rw [congrFun (addChunk_parents _ _ _) q]
      exact h1
    · rw [congrFun (addChunk_parents _ _ _) q]
      exact h1

theorem replaceParentChunk_children_nodup (h : CGraph) (c b a q : Nat)
    (hq : (h.children q).Nodup) :
    ((replaceParentChunk h c b a).children q).Nodup := by
  unfold replaceParentChunk
  dsimp only
  have h1 : ((setParents h c ((h.parents c).erase b)).children q).Nodup := by
    rw [congrFun (setParents_children_eq _ _ _) q]; exact hq
  by_cases hca : c = a
  · rw [if_neg (not_not_intro hca)]; exact h1
  · rw [if_pos hca]
    split
    · rw [congrFun (addParent_children _ _ _) q]
      exact addChunk_children_nodup _ _ _ _ h1
    · exact addChunk_children_nodup _ _ _ _ h1

/-- One parent-loop iteration of `integrate` preserves the mid-loop
description. -/
theorem intP_step (u0 : CGraph) (a b p : Nat) (D : List Nat) (h : CGraph)
    (hpD : p ∉ D) (hm : IntPMid u0 a b D h) :
    IntPMid u0 a b (D ++ [p]) (replaceChunk h p b a) := by
  have hpa : p ∈ h.parents a ↔ p ∈ u0.parents a := by
    rw [hm.par_a p]
    simp [hpD]
  refine ⟨?_, ?_, ?_, ?_, ?_, ?_⟩
  · intro q hq
    have hqD : q ∉ D := fun hmem => hq (List.mem_append_left _ hmem)
    have hqp : q ≠ p := fun he =>
      hq (List.mem_append_right _ (List.mem_singleton.mpr he))
    rw [replaceChunk_children_ne _ _ _ _ _ hqp]
    exact hm.ch_untouched q hqD
  · intro q hq z
    rcases List.mem_append.mp hq with hqD | hqp
    · have hqp : q ≠ p := fun he => hpD (he ▸ hqD)
      rw [replaceChunk_children_ne _ _ _ _ _ hqp]
      exact hm.ch_char q hqD z
    · have hqp := List.mem_singleton.mp hqp
      subst hqp
      rw [replaceChunk_children_self_mem, hm.ch_untouched q hpD, hpa]
  · intro z
    rw [replaceChunk_parents_new_mem, hm.par_a z]
    constructor
    · rintro ((hz | ⟨hzD, hza⟩) | ⟨rfl, hpa2⟩)
      · exact Or.inl hz
      · exact Or.inr ⟨List.mem_append_left _ hzD, hza⟩
      · exact Or.inr ⟨List.mem_append_right _ (List.mem_singleton.mpr rfl), hpa2⟩
    · rintro (hz | ⟨hzDp, hza⟩)
      · exact Or.inl (Or.inl hz)
      · rcases List.mem_append.mp hzDp with hzD | hzp
        · exact Or.inl (Or.inr ⟨hzD, hza⟩)
        · exact Or.inr ⟨List.mem_singleton.mp hzp, (List.mem_singleton.mp hzp) ▸ hza⟩
  · intro c hc
    rw [replaceChunk_parents_ne _ _ _ _ _ hc]
    exact hm.par_other c hc
  · intro q hq
    exact replaceChunk_children_nodup _ _ _ _ _ (hm.nodup_ch q hq)
  · intro q hq
    exact replaceChunk_parents_nodup _ _ _ _ _ (hm.nodup_par q hq)

theorem intPLoop (u0 : CGraph) (a b : Nat) :
    ∀ (todo D : List Nat) (h : CGraph), (D ++ todo).Nodup →
      IntPMid u0 a b D h →
      IntPMid u0 a b (D ++ todo)
        (todo.foldl (fun h p => replaceChunk h p b a) h) := by
  intro todo
  induction todo with
  | nil => intro D h _ hm; simpa using hm
  | cons p todo' ih =>
    intro D h hnd hm
    have hpD : p ∉ D := by
      intro hmem
      rcases List.nodup_append.mp hnd with ⟨-, -, hdisj⟩
      exact hdisj hmem (List.mem_cons_self _ _)
    have hstep := intP_step u0 a b p D h hpD hm
    have hnd' : ((D ++ [p]) ++ todo').Nodup := by
      rw [List.append_assoc, List.singleton_append]
      exact hnd
    have := ih (D ++ [p]) (replaceChunk h p b a) hnd' hstep
    rw [List.append_assoc, List.singleton_append] at this
    exact this

theorem intP_total (u0 : CGraph) (a b : Nat) (hnd : (u0.parents b).Nodup) :
    IntPMid u0 a b (u0.parents b)
      ((u0.parents b).foldl (fun h p => replaceChunk h p b a) u0) := by
  have base : IntPMid u0 a b [] u0 := by
    refine ⟨fun q _ => rfl, ?_, ?_, fun c _ => rfl, fun q hq => hq, fun q hq => hq⟩
    · intro q hq; simp at hq
    · intro z; simp
  have := intPLoop u0 a b (u0.parents b) [] u0 (by simpa using hnd) base
  simpa using this

/-- One child-loop iteration of `integrate` preserves the mid-loop
description. -/
theorem intC_step (u1 : CGraph) (a b c : Nat) (D : List Nat) (h : CGraph)
    (hcD : c ∉ D) (hm : IntCMid u1 a b D h) :
    IntCMid u1 a b (D ++ [c]) (replaceParentChunk h c b a) := by
  have hca : c ∈ h.children a ↔ c ∈ u1.children a := by
    rw [hm.ch_a c]
    simp [hcD]
  refine ⟨?_, ?_, ?_, ?_, ?_, ?_⟩
  · intro q hq
    have hqD : q ∉ D := fun hmem => hq (List.mem_append_left _ hmem)
    have hqc : q ≠ c := fun he =>
      hq (List.mem_append_right _ (List.mem_singleton.mpr he))
    rw [replaceParentChunk_parents_ne _ _ _ _ _ hqc]
    exact hm.par_untouched q hqD
  · intro q hq z
    rcases List.mem_append.mp hq with hqD | hqc
    · have hqc : q ≠ c := fun he => hcD (he ▸ hqD)
      rw [replaceParentChunk_parents_ne _ _ _ _ _ hqc]
      exact hm.par_char q hqD z
    · have hqc := List.mem_singleton.mp hqc
      subst hqc
      rw [replaceParentChunk_parents_self_mem, hm.par_untouched q hcD, hca]
  · intro z
    rw [replaceParentChunk_children_new_mem, hm.ch_a z]
    constructor
    · rintro ((hz | ⟨hzD, hza⟩) | ⟨rfl, hca2⟩)
      · exact Or.inl hz
      · exact Or.inr ⟨List.mem_append_left _ hzD, hza⟩
      · exact Or.inr ⟨List.mem_append_right _ (List.mem_singleton.mpr rfl), hca2⟩
    · rintro (hz | ⟨hzDc, hza⟩)
      · exact Or.inl (Or.inl hz)
      · rcases List.mem_append.mp hzDc with hzD | hzc
        · exact Or.inl (Or.inr ⟨hzD, hza⟩)
        · exact Or.inr ⟨List.mem_singleton.mp hzc, (List.mem_singleton.mp hzc) ▸ hza⟩
  · intro q hq
    rw [replaceParentChunk_children_ne _ _ _ _ _ hq]
    exact hm.ch_other q hq
  · intro q hq
    exact replaceParentChunk_children_nodup _ _ _ _ _ (hm.nodup_ch q hq)
  · intro q hq
    exact replaceParentChunk_parents_nodup _ _ _ _ _ (hm.nodup_par q hq)

theorem intCLoop (u1 : CGraph) (a b : Nat) :
    ∀ (todo D : List Nat) (h : CGraph), (D ++ todo).Nodup →
      IntCMid u1 a b D h →
      IntCMid u1 a b (D ++ todo)
        (todo.foldl (fun h c => replaceParentChunk h c b a) h) := by
  intro todo
  induction todo with
  | nil => intro D h _ hm; simpa using hm
  | cons c todo' ih =>
    intro D h hnd hm
    have hcD : c ∉ D := by
      intro hmem
      rcases List.nodup_append.mp hnd with ⟨-, -, hdisj⟩
      exact hdisj hmem (List.mem_cons_self _ _)
    have hstep := intC_step u1 a b c D h hcD hm
    have hnd' : ((D ++ [c]) ++ todo').Nodup := by
      rw [List.append_assoc, List.singleton_append]
      exact hnd
    have := ih (D ++ [c]) (replaceParentChunk h c b a) hnd' hstep
    rw [List.append_assoc, List.singleton_append] at this
    exact this

theorem intC_total (u1 : CGraph) (a b : Nat) (hnd : (u1.children b).Nodup) :
    IntCMid u1 a b (u1.children b)
      ((u1.children b).foldl (fun h c => replaceParentChunk h c b a) u1) := by
  have base : IntCMid u1 a b [] u1 := by
    refine ⟨fun q _ => rfl, ?_, ?_, fun q _ => rfl, fun q hq => hq, fun q hq => hq⟩
    · intro q hq; simp at hq
    · intro z; simp
  have := intCLoop u1 a b (u1.children b) [] u1 (by simpa using hnd) base
  simpa using this

/-! Edge transparency of the module, block and origin phases of
`integrate`, and the exact edge effect of its final cleanup. -/

theorem intModules_children (g : CGraph) (a b : Nat) :
    (intModules g a b).children = g.children := by
  unfold intModules
  rw [setModules_children_eq]
  exact foldl_preserves (fun t => t.children = g.children)
    (fun h m => moveModule h b m a) (g.modules b) g
    (fun t m _ ht => by
      show (moveModule t b m a).children = g.children
      rw [moveModule_children]; exact ht) rfl

theorem intModules_parents (g : CGraph) (a b : Nat) :
    (intModules g a b).parents = g.parents := by
  unfold intModules
  rw [setModules_parents_eq]
  exact foldl_preserves (fun t => t.parents = g.parents)
    (fun h m => moveModule h b m a) (g.modules b) g
    (fun t m _ ht => by
      show (moveModule t b m a).parents = g.parents
      rw [moveModule_parents]; exact ht) rfl

theorem intBlocks_children (g : CGraph) (a b : Nat) (r : String) :
    (intBlocks g a b r).children = g.children := by
  unfold intBlocks
  rw [setBlocksOf_children_eq]
  exact foldl_preserves (fun t => t.children = g.children)
    (integrateBlockStep a b r) (g.blocksOf b) g
    (fun t c _ ht => by
      show (integrateBlockStep a b r t c).children = g.children
      rw [integrateBlockStep_children]; exact ht) rfl

theorem intBlocks_parents (g : CGraph) (a b : Nat) (r : String) :
    (intBlocks g a b r).parents = g.parents := by
  unfold intBlocks
  rw [setBlocksOf_parents_eq]
  exact foldl_preserves (fun t => t.parents = g.parents)
    (integrateBlockStep a b r) (g.blocksOf b) g
    (fun t c _ ht => by
      show (integrateBlockStep a b r t c).parents = g.parents
      rw [integrateBlockStep_parents]; exact ht) rfl

theorem intOrigins_children (g : CGraph) (a b : Nat) (r : String) :
    (intOrigins g a b r).children = g.children := rfl

theorem intOrigins_parents (g : CGraph) (a b : Nat) (r : String) :
    (intOrigins g a b r).parents = g.parents := rfl

theorem intCleanup_children_acc (g : CGraph) (s o q : Nat) :
    (intCleanup g s o).children q =
      if q = s then ((g.children s).erase o).erase s else g.children q := by
  unfold intCleanup
  dsimp only
  rw [congrFun (setParents_children_eq _ _ _) q]
  by_cases h : q = s
  · subst h; rw [if_pos rfl, setChildren_self]
  · rw [if_neg h, setChildren_ne _ _ _ _ h]

theorem intCleanup_parents_acc (g : CGraph) (s o q : Nat) :
    (intCleanup g s o).parents q =
      if q = s then ((g.parents s).erase o).erase s else g.parents q := by
  unfold intCleanup
  dsimp only
  by_cases h : q = s
  · subst h
    rw [if_pos rfl, setParents_self, congrFun (setChildren_parents_eq _ _ _) q]
  · rw [if_neg h, setParents_ne _ _ _ _ h,
      congrFun (setChildren_parents_eq _ _ _) q]

/-- Complete edge-level description of `integrate`'s parent phase: `other`'s
parent set is cleared, each former parent has `other` replaced by `self` in
its child set (with the self-loop and duplicate-edge guards of
`replaceChunk`), and `self` gains all former parents of `other`. -/
theorem intParents_char (g : CGraph) (a b : Nat) (hab : a ≠ b)
    (hndPb : (g.parents b).Nodup) :
    ∃ u1 : CGraph, intParents g a b = u1 ∧
      u1.parents b = [] ∧
      (∀ z, z ∈ u1.parents a ↔ z ∈ g.parents a ∨ (z ∈ g.parents b ∧ z ≠ a)) ∧
      (∀ q, q ≠ a → q ≠ b → u1.parents q = g.parents q) ∧
      (∀ q, q ∉ g.parents b → u1.children q = g.children q) ∧
      (∀ q, q ∈ g.parents b → ∀ z,
        (z ∈ u1.children q ↔
          z ∈ (g.children q).erase b ∨ (z = a ∧ q ≠ a ∧ q ∉ g.parents a))) ∧
      (∀ q, (g.children q).Nodup → (u1.children q).Nodup) ∧
      (∀ q, q ≠ b → (g.parents q).Nodup → (u1.parents q).Nodup) := by
  have hmP := intP_total g a b hndPb
  refine ⟨setParents ((g.parents b).foldl (fun h p => replaceChunk h p b a) g)
      b [], rfl, setParents_self _ _ _, ?_, ?_, ?_, ?_, ?_, ?_⟩
  · intro z
    rw [setParents_ne _ _ _ a hab]
    exact hmP.par_a z
  · intro q hqa hqb
    rw [setParents_ne _ _ _ q hqb]
    exact hmP.par_other q hqa
  · intro q hq
    rw [congrFun (setParents_children_eq _ _ _) q]
    exact hmP.ch_untouched q hq
  · intro q hq z
    rw [congrFun (setParents_children_eq _ _ _) q]
    exact hmP.ch_char q hq z
  · intro q h
    rw [congrFun (setParents_children_eq _ _ _) q]
    exact hmP.nodup_ch q h
  · intro q hqb h
    rw [setParents_ne _ _ _ q hqb]
    exact hmP.nodup_par q h

/-- Complete edge-level description of `integrate`'s child phase, mirroring
`intParents_char`. -/
theorem intChildren_char (g : CGraph) (a b : Nat) (hab : a ≠ b)
    (hndCb : (g.children b).Nodup) :
    ∃ u2 : CGraph, intChildren g a b = u2 ∧
      u2.children b = [] ∧
      (∀ z, z ∈ u2.children a ↔ z ∈ g.children a ∨ (z ∈ g.children b ∧ z ≠ a)) ∧
      (∀ q, q ≠ a → q ≠ b → u2.children q = g.children q) ∧
      (∀ q, q ∉ g.children b → u2.parents q = g.parents q) ∧
      (∀ q, q ∈ g.children b → ∀ z,
        (z ∈ u2.parents q ↔
          z ∈ (g.parents q).erase b ∨ (z = a ∧ q ≠ a ∧ q ∉ g.children a))) ∧
      (∀ q, (g.parents q).Nodup → (u2.parents q).Nodup) ∧
      (∀ q, q ≠ b → (g.children q).Nodup → (u2.children q).Nodup) := by
  have hmC := intC_total g a b hndCb
  refine ⟨setChildren ((g.children b).foldl
      (fun h c => replaceParentChunk h c b a) g) b [],
    rfl, setChildren_self _ _ _, ?_, ?_, ?_, ?_, ?_, ?_⟩
  · intro z
    rw [setChildren_ne _ _ _ a hab]
    exact hmC.ch_a z
  · intro q hqa hqb
    rw [setChildren_ne _ _ _ q hqb]
    exact hmC.ch_other q hqa
  · intro q hq
    rw [congrFun (setChildren_parents_eq _ _ _) q]
    exact hmC.par_untouched q hq
  · intro q hq z
    rw [congrFun (setChildren_parents_eq _ _ _) q]
    exact hmC.par_char q hq z
  · intro q h
    rw [congrFun (setChildren_parents_eq _ _ _) q]
    exact hmC.nodup_par q h
  · intro q hqb h
    rw [setChildren_ne _ _ _ q hqb]
    exact hmC.nodup_ch q h

/-- A successful `integrate(other, reason)` preserves `checkConstraints`
success on every surviving chunk: the absorbed chunk `b` is retired and all
edges are rewired symmetrically. -/
theorem integrate_phases_inv (live : List Nat) (g : CGraph) (a b : Nat)
    (r : String) (hnd : live.Nodup) (hInv : GraphInv live g) (ha : a ∈ live)
    (hb : b ∈ live) (hab : a ≠ b) :
    GraphInv (live.erase b)
      (intCleanup (intOrigins (intBlocks (intChildren (intParents
        (intModules g a b) a b) a b) a b r) a b r) a b) := by
  obtain ⟨hndCa, hsymCa, hndPa, hsymPa⟩ := hInv a ha
  obtain ⟨hndCb, hsymCb, hndPb, hsymPb⟩ := hInv b hb
  have hba : b ≠ a := fun h => hab h.symm
  have hu0c : (intModules g a b).children = g.children := intModules_children g a b
  have hu0p : (intModules g a b).parents = g.parents := intModules_parents g a b
  obtain ⟨u1, hu1eq, hu1pb, hu1pa, hu1po, hu1ch_not, hu1ch_in, hu1ndc, hu1ndp⟩ :=
    intParents_char (intModules g a b) a b hab (by rw [hu0p]; exact hndPb)
  simp only [hu0c, hu0p] at hu1pa hu1po hu1ch_not hu1ch_in hu1ndc hu1ndp
  obtain ⟨u2, hu2eq, hu2cb, hu2ca, hu2co, hu2p_not, hu2p_in, hu2ndp, hu2ndc⟩ :=
    intChildren_char u1 a b hab (hu1ndc b hndCb)
  rw [hu1eq, hu2eq]
  have hfc : ∀ q,
      (intCleanup (intOrigins (intBlocks u2 a b r) a b r) a b).children q =
        if q = a then ((u2.children a).erase b).erase a else u2.children q := by
    intro q
    rw [intCleanup_children_acc, intOrigins_children, intBlocks_children]
  have hfp : ∀ q,
      (intCleanup (intOrigins (intBlocks u2 a b r) a b r) a b).parents q =
        if q = a then ((u2.parents a).erase b).erase a else u2.parents q := by
    intro q
    rw [intCleanup_parents_acc, intOrigins_parents, intBlocks_parents]
  have hokc : ∀ q, q ∈ live → (g.children q).Nodup := fun q hq => (hInv q hq).1
  have hsymc : ∀ q, q ∈ live → ∀ ch, ch ∈ g.children q → q ∈ g.parents ch :=
    fun q hq => (hInv q hq).2.1
  have hokp : ∀ q, q ∈ live → (g.parents q).Nodup :=
    fun q hq => (hInv q hq).2.2.1
  have hsymp : ∀ q, q ∈ live → ∀ p, p ∈ g.parents q → q ∈ g.children p :=
    fun q hq => (hInv q hq).2.2.2
  have hF1 : ∀ q z, z ∈ g.children q → z ≠ b → z ∈ u1.children q := by
    intro q z hz hzb
    by_cases hq : q ∈ g.parents b
    · rw [hu1ch_in q hq z]
      exact Or.inl ((List.mem_erase_of_ne hzb).mpr hz)
    · rw [hu1ch_not q hq]; exact hz
  have hF2 : ∀ q z, z ∈ u1.children q →
      z ∈ g.children q ∨ (q ∈ g.parents b ∧ z = a ∧ q ≠ a ∧ q ∉ g.parents a) := by
    intro q z hz
    by_cases hq : q ∈ g.parents b
    · rw [hu1ch_in q hq z] at hz
      rcases hz with h1 | h2
      · exact Or.inl (List.mem_of_mem_erase h1)
      · exact Or.inr ⟨hq, h2⟩
    · rw [hu1ch_not q hq] at hz; exact Or.inl hz
  have hFb1 : ∀ q, q ∈ live → b ∉ u1.children q := by
    intro q hq hmem
    by_cases hqps : q ∈ g.parents b
    · rw [hu1ch_in q hqps b] at hmem
      rcases hmem with h1 | ⟨h2, -, -⟩
      · exact (((hokc q hq).mem_erase_iff).mp h1).1 rfl
      · exact hba h2
    · rw [hu1ch_not q hqps] at hmem
      exact hqps (hsymc q hq b hmem)
  have hG1 : ∀ q z, z ∈ u1.parents q → z ≠ b → z ∈ u2.parents q := by
    intro q z hz hzb
    by_cases hq : q ∈ u1.children b
    · rw [hu2p_in q hq z]
      exact Or.inl ((List.mem_erase_of_ne hzb).mpr hz)
    · rw [hu2p_not q hq]; exact hz
  have hFb2 : ∀ q, q ∈ live → q ≠ b → q ≠ a → b ∉ u2.parents q := by
    intro q hq hqb hqa hmem
    by_cases hqcs : q ∈ u1.children b
    · rw [hu2p_in q hqcs b] at hmem
      rcases hmem with h1 | ⟨h2, -, -⟩
      · rw [hu1po q hqa hqb] at h1
        exact (((hokp q hq).mem_erase_iff).mp h1).1 rfl
      · exact hba h2
    · rw [hu2p_not q hqcs, hu1po q hqa hqb] at hmem
      exact hqcs (hF1 b q (hsymp q hq b hmem) hqb)
  intro y hy
  have hyb : y ≠ b := ((hnd.mem_erase_iff).mp hy).1
  have hyl : y ∈ live := ((hnd.mem_erase_iff).mp hy).2
  refine ⟨?_, ?_, ?_, ?_⟩
  · rw [hfc y]
    by_cases hya : y = a
    · rw [if_pos hya]
      exact ((hu2ndc a hab (hu1ndc a (hokc a ha))).erase b).erase a
    · rw [if_neg hya]
      exact hu2ndc y hyb (hu1ndc y (hokc y hyl))
  · intro ch hch
    rw [hfc y] at hch
    rw [hfp ch]
    by_cases hya : y = a
    · rw [hya] at hch
      rw [hya]
      rw [if_pos rfl] at hch
      have hndu2ca : (u2.children a).Nodup :=
        hu2ndc a hab (hu1ndc a (hokc a ha))
      have h1 := ((hndu2ca.erase b).mem_erase_iff).mp hch
      have h2 := (hndu2ca.mem_erase_iff).mp h1.2
      have hcha : ch ≠ a := h1.1
      have hchb : ch ≠ b := h2.1
      rw [if_neg hcha]
      have hkey : ch ∈ u1.children a → a ∈ u2.parents ch := by
        intro hin
        rcases hF2 a ch hin with hchg | ⟨-, hch2, -, -⟩
        · have hin2 : a ∈ u1.parents ch := by
            rw [hu1po ch hcha hchb]
            exact hsymc a ha ch hchg
          exact hG1 ch a hin2 hab
        · exact absurd hch2 hcha
      rcases (hu2ca ch).mp h2.2 with hin1 | ⟨hincs, -⟩
      · exact hkey hin1
      · by_cases hchu1 : ch ∈ u1.children a
        · exact hkey hchu1
        · rw [hu2p_in ch hincs a]
          exact Or.inr ⟨rfl, hcha, hchu1⟩
    · rw [if_neg hya] at hch
      rw [hu2co y hya hyb] at hch
      have hchb : ch ≠ b := fun he => hFb1 y hyl (he ▸ hch)
      by_cases hcha : ch = a
      · rw [if_pos hcha]
        rw [hcha] at hch
        have hy2 : y ∈ u1.parents a := by
          rw [hu1pa y]
          rcases hF2 y a hch with h1 | ⟨hyps, -, -, -⟩
          · exact Or.inl (hsymc y hyl a h1)
          · exact Or.inr ⟨hyps, hya⟩
        have hy3 : y ∈ u2.parents a := hG1 a y hy2 hyb
        exact (List.mem_erase_of_ne hya).mpr ((List.mem_erase_of_ne hyb).mpr hy3)
      · rw [if_neg hcha]
        rcases hF2 y ch hch with h1 | ⟨-, hch2, -, -⟩
        · have hy2 : y ∈ u1.parents ch := by
            rw [hu1po ch hcha hchb]
            exact hsymc y hyl ch h1
          exact hG1 ch y hy2 hyb
        · exact absurd hch2 hcha
  · rw [hfp y]
    by_cases hya : y = a
    · rw [if_pos hya]
      exact ((hu2ndp a (hu1ndp a hab (hokp a ha))).erase b).erase a
    · rw [if_neg hya]
      exact hu2ndp y (hu1ndp y hyb (hokp y hyl))
  · intro p hp
    rw [hfp y] at hp
    rw [hfc p]
    by_cases hya : y = a
    · rw [hya] at hp
      rw [hya]
      rw [if_pos rfl] at hp
      have hndu2pa : (u2.parents a).Nodup :=
        hu2ndp a (hu1ndp a hab (hokp a ha))
      have h1 := ((hndu2pa.erase b).mem_erase_iff).mp hp
      have h2 := (hndu2pa.mem_erase_iff).mp h1.2
      have hpa : p ≠ a := h1.1
      have hpb : p ≠ b := h2.1
      rw [if_neg hpa, hu2co p hpa hpb]
      have hR : p ∈ u1.parents a := by
        have h22 := h2.2
        by_cases hacs : a ∈ u1.children b
        · rw [hu2p_in a hacs p] at h22
          rcases h22 with hh | ⟨-, hh3, -⟩
          · exact List.mem_of_mem_erase hh
          · exact absurd rfl hh3
        · rw [hu2p_not a hacs] at h22
          exact h22
      rcases (hu1pa p).mp hR with hpga | ⟨hpps, -⟩
      · exact hF1 p a (hsymp a ha p hpga) hab
      · by_cases hpga2 : p ∈ g.parents a
        · exact hF1 p a (hsymp a ha p hpga2) hab
        · rw [hu1ch_in p hpps a]
          exact Or.inr ⟨rfl, hpa, hpga2⟩
    · rw [if_neg hya] at hp
      have hpb : p ≠ b := fun he => hFb2 y hyl hyb hya (he ▸ hp)
      have hQ : p ∈ g.parents y ∨
          (p = a ∧ y ∈ u1.children b ∧ y ∉ u1.children a) := by
        by_cases hycs : y ∈ u1.children b
        · rw [hu2p_in y hycs p] at hp
          rcases hp with hh | ⟨hh1, -, hh3⟩
          · rw [hu1po y hya hyb] at hh
            exact Or.inl (List.mem_of_mem_erase hh)
          · exact Or.inr ⟨hh1, hycs, hh3⟩
        · rw [hu2p_not y hycs, hu1po y hya hyb] at hp
          exact Or.inl hp
      by_cases hpa : p = a
      · rw [if_pos hpa]
        have hy2 : y ∈ u2.children a := by
          rw [hu2ca y]
          rcases hQ with h1 | ⟨-, hycs, -⟩
          · rw [hpa] at h1
            exact Or.inl (hF1 a y (hsymp y hyl a h1) hyb)
          · exact Or.inr ⟨hycs, hya⟩
        exact (List.mem_erase_of_ne hya).mpr ((List.mem_erase_of_ne hyb).mpr hy2)
      · rw [if_neg hpa, hu2co p hpa hpb]
        rcases hQ with h1 | ⟨hh1, -, -⟩
        · exact hF1 p y (hsymp y hyl p h1) hyb
        · exact absurd hh1 hpa

/-- `integrate` preserves the invariant on the surviving live set, whether or
not the guard allows the merge. -/
theorem integrate_inv (live : List Nat) (g : CGraph) (a b : Nat) (r : String)
    (hnd : live.Nodup) (hinv : GraphInv live g) (ha : a ∈ live) (hb : b ∈ live)
    (hab : a ≠ b) :
    GraphInv (if (integrate g a b r).2 then live.erase b else live)
      (integrate g a b r).1 := by
  by_cases hc : canBeIntegrated g a b
  · have he : integrate g a b r =
        (intCleanup (intOrigins (intBlocks (intChildren (intParents
          (intModules g a b) a b) a b) a b r) a b r) a b, true) := by
      unfold integrate
      rw [if_neg (not_not_intro hc)]
    rw [he]
    exact integrate_phases_inv live g a b r hnd hinv ha hb hab
  · have he : integrate g a b r = (g, false) := by
      unfold integrate
      rw [if_pos hc]
    rw [he]
    exact hinv

/-- C1 (amended): starting from a well-formed graph (every live chunk passes
`checkConstraints()`), the invariant is preserved by any sequence of
`remove`, successful or failed `integrate`, `split` onto a fresh chunk,
`removeChunk`, `removeParent`, and paired `addChunk`+`addParent` edge
insertions as the pipeline performs them; the duplicate-edge and symmetry
checks of `checkConstraints()` therefore never raise on a live chunk.  (The
original claim quantified over lone `addChunk`/`addParent` calls as well,
which the counterexample refutes, and asserted absence of self-edges, which
`checkConstraints()` does not check.) -/
theorem checkConstraints_invariant (live live' : List Nat) (g g' : CGraph)
    (hnd : live.Nodup) (hinv : GraphInv live g)
    (hs : GraphSteps live g live' g') :
    live'.Nodup ∧ GraphInv live' g' := by
  induction hs with
  | refl => exact ⟨hnd, hinv⟩
  | tail h1 h2 h3 ih =>
    rename_i live1 g1 live2 g2 op
    obtain ⟨hnd1, hinv1⟩ := ih
    cases op with
    | pairAdd A B =>
      simp only [legalOp, decide_eq_true_eq] at h2
      simp only [applyOp, Prod.mk.injEq] at h3
      obtain ⟨h31, h32⟩ := h3
      subst h31
      subst h32
      exact ⟨hnd1, fun y hy => pairAdd_okAt g1 A B y (hinv1 y hy)⟩
    | remChunk A B =>
      simp only [legalOp, decide_eq_true_eq] at h2
      simp only [applyOp, Prod.mk.injEq] at h3
      obtain ⟨h31, h32⟩ := h3
      subst h31
      subst h32
      exact ⟨hnd1, removeChunk_inv live1 g1 A B hinv1 h2.1 h2.2⟩
    | remParent A B =>
      simp only [legalOp, decide_eq_true_eq] at h2
      simp only [applyOp, Prod.mk.injEq] at h3
      obtain ⟨h31, h32⟩ := h3
      subst h31
      subst h32
      exact ⟨hnd1, removeParent_inv live1 g1 A B hinv1 h2.1 h2.2⟩
    | removeOp x s =>
      simp only [legalOp, decide_eq_true_eq] at h2
      simp only [applyOp, Prod.mk.injEq] at h3
      obtain ⟨h31, h32⟩ := h3
      subst h31
      subst h32
      exact ⟨hnd1.erase x, remove_inv live1 g1 x s hnd1 hinv1 h2⟩
    | integrateOp A B s =>
      simp only [legalOp, decide_eq_true_eq] at h2
      simp only [applyOp, Prod.mk.injEq] at h3
      obtain ⟨h31, h32⟩ := h3
      subst h31
      subst h32
      refine ⟨?_, integrate_inv live1 g1 A B s hnd1 hinv1 h2.1 h2.2.1 h2.2.2⟩
      split
      · exact hnd1.erase B
      · exact hnd1
    | splitOp A n =>
      simp only [legalOp, decide_eq_true_eq, List.all_eq_true] at h2
      simp only [applyOp, Prod.mk.injEq] at h3
      obtain ⟨h31, h32⟩ := h3
      subst h31
      subst h32
      obtain ⟨hA, hn, hcn, hpn, hfresh⟩ := h2
      exact ⟨nodup_append_singleton hnd1 hn,
        split_inv live1 g1 A n hinv1 hA hn hcn hpn hfresh⟩

/-- C1 counterexample to the original claim: `cgEmpty` with live chunks 0 and
1 is well formed, yet a single one-sided `addChunk` call records 1 as a child
of 0 without the reciprocal parent edge, so `checkConstraints()` raises on
chunk 0. -/
theorem addChunk_breaks_symmetry_cex :
    GraphInv [0, 1] cgEmpty ∧
    1 ∈ (addChunk cgEmpty 0 1).1.children 0 ∧
    0 ∉ (addChunk cgEmpty 0 1).1.parents 1 ∧
    ¬ okAt (addChunk cgEmpty 0 1).1 0 := by decide

/-- Witness for C1: a concrete one-step derivation (`remove` of chunk 1 from
the empty two-chunk graph) satisfying every hypothesis of
`checkConstraints_invariant`. -/
theorem checkConstraints_invariant_witness :
    ([0] : List Nat).Nodup ∧ GraphInv [0] (removeFn cgEmpty 1 "w") :=
  checkConstraints_invariant [0, 1] [0] cgEmpty (removeFn cgEmpty 1 "w")
    (by decide) (by decide)
    (@GraphSteps.tail [0, 1] cgEmpty [0, 1] cgEmpty [0]
      (removeFn cgEmpty 1 "w") (GraphOp.removeOp 1 "w")
      GraphSteps.refl (by decide) (by rfl))
